import Mathlib

/-!
Verification of the text-to-structure resume extraction engine.

The engine consists of two JavaScript source files:
* `resumeParser2.js` — a primary strategy (`parseResume`) and a secondary
  strategy (`parseResumeSecondaryApproach`);
* an unnamed file holding an enhanced pipeline (`parseResume` with
  empty-field pruning) and a simple pipeline (`extractSection`,
  `extractDates`).

Strings are modelled as `List Char` (`Str`) so that every operation is a
structurally recursive, kernel-evaluable function.  JavaScript string
primitives (`trim`, `split`, `includes`, `toLowerCase`, …) are re-implemented
below with JS semantics on ASCII text.  The external date library
(`chrono-node`) is modelled as an oracle parameter `cp : Str → Option Str`
(returning the ISO `YYYY-MM-DD` day part of a parsed date, or `none`), and
`chrono.parse` as `cpList : Str → List (Option Str)`.  The fuzzball string
similarity library is modelled from its documented algorithm (Levenshtein
ratio with substitution weight 2, i.e. `round(200·LCS/(|a|+|b|))`, after
`full_process`).
-/

namespace Resume

/-- JS strings, modelled as lists of characters. -/
abbrev Str := List Char

/-- Shorthand for embedding Lean string literals. -/
def lit (s : String) : Str := s.toList

/-- JS `String.prototype.toLowerCase` (ASCII). -/
def toLowerS (s : Str) : Str := s.map Char.toLower

/-- JS `String.prototype.toUpperCase` (ASCII). -/
def toUpperS (s : Str) : Str := s.map Char.toUpper

/-- The whitespace class used by `trim` and `\s` (ASCII subset). -/
def isWs (c : Char) : Bool := c.isWhitespace

/-- Drop leading whitespace. -/
def trimL (s : Str) : Str := s.dropWhile isWs

/-- JS `String.prototype.trim`. -/
def trim (s : Str) : Str := ((trimL s).reverse.dropWhile isWs).reverse

/-- Does `hay` start with `pat`? -/
def leadEq : Str → Str → Bool
  | _, [] => true
  | [], _ :: _ => false
  | h :: hs, p :: ps => h = p && leadEq hs ps

/-- JS `String.prototype.includes`. -/
def containsS : Str → Str → Bool
  | [], pat => leadEq [] pat
  | c :: t, pat => leadEq (c :: t) pat || containsS t pat

/-- JS `String.prototype.startsWith`. -/
def startsWithS (s pat : Str) : Bool := leadEq s pat

/-- Case-insensitive containment (for `/…/i` keyword tests); `w` is given
lowercased. -/
def ciContains (s w : Str) : Bool := containsS (toLowerS s) w

theorem length_dropWhile_le {α : Type} (p : α → Bool) (l : List α) :
    (l.dropWhile p).length ≤ l.length := by
  induction l with
  | nil => simp [List.dropWhile]
  | cons a t ih =>
    simp only [List.dropWhile]
    split
    · exact Nat.le_trans ih (Nat.le_succ _)
    · simp

/-- JS `split` on a regex class with `+` (runs of separator characters
form one split point); pieces may be empty at the ends.  `inSep` tracks
whether the previous character belonged to a separator run. -/
def splitRunsGo (p : Char → Bool) (inSep : Bool) (acc : Str) : Str → List Str
  | [] => [acc.reverse]
  | c :: t =>
    if p c then
      if inSep then splitRunsGo p true [] t
      else acc.reverse :: splitRunsGo p true [] t
    else splitRunsGo p false (c :: acc) t

def splitRuns (p : Char → Bool) (s : Str) : List Str := splitRunsGo p false [] s

/-- JS `split` on a single-character regex alternation (each occurrence is
its own split point, so adjacent separators yield empty pieces). -/
def splitCharGo (p : Char → Bool) : Str → Str → List Str
  | [], acc => [acc.reverse]
  | c :: t, acc =>
    if p c then acc.reverse :: splitCharGo p t [] else splitCharGo p t (c :: acc)

def splitChar (p : Char → Bool) (s : Str) : List Str := splitCharGo p s []

/-- JS `Array.prototype.join`. -/
def joinS (sep : Str) : List Str → Str
  | [] => []
  | [x] => x
  | x :: xs => x ++ sep ++ joinS sep xs

/-- Order-preserving deduplication (JS `[...new Set(xs)]`). -/
def dedupGo {α : Type} [DecidableEq α] (seen : List α) : List α → List α
  | [] => []
  | x :: t => if x ∈ seen then dedupGo seen t else x :: dedupGo (x :: seen) t

def dedupFirst {α : Type} [DecidableEq α] (l : List α) : List α := dedupGo [] l

theorem mem_dedupGo {α : Type} [DecidableEq α] {seen l : List α} {x : α}
    (h : x ∈ dedupGo seen l) : x ∈ l := by
  induction l generalizing seen with
  | nil => simpa [dedupGo] using h
  | cons a t ih =>
    simp only [dedupGo] at h
    split at h
    · exact List.mem_cons_of_mem a (ih h)
    · rcases List.mem_cons.mp h with h1 | h2
      · exact h1 ▸ List.mem_cons_self a t
      · exact List.mem_cons_of_mem a (ih h2)

theorem mem_dedupFirst {α : Type} [DecidableEq α] {l : List α} {x : α}
    (h : x ∈ dedupFirst l) : x ∈ l := mem_dedupGo h

/-- UTF-16 code-unit lexicographic order (JS default `Array.sort` on
strings; identical to code-point order on the ASCII text handled here). -/
def lexLe : Str → Str → Bool
  | [], _ => true
  | _ :: _, [] => false
  | a :: as, b :: bs => if a = b then lexLe as bs else decide (a < b)

/-- Stable insertion by `lexLe` (JS default sort is stable). -/
def lexInsert (x : Str) : List Str → List Str
  | [] => [x]
  | y :: t => if lexLe x y then x :: y :: t else y :: lexInsert x t

def lexSort : List Str → List Str
  | [] => []
  | x :: t => lexInsert x (lexSort t)

end Resume

namespace Resume.Fuzz

/-- fuzzball `full_process`: replace non-alphanumeric characters by a
space, lowercase, trim. -/
def fullProcess (s : Str) : Str :=
  trim (s.map fun c => if c.isAlphanum then c.toLower else ' ')

/-- One DP step for the length of a longest common subsequence: given the
suffix of `b`, the matching suffix of the previous row (starting at
`row[j]`) and `new[j]`, produce `[new[j+1], …]`. -/
def lcsRowGo (c : Char) : Str → List Nat → Nat → List Nat
  | [], _, _ => []
  | _ :: _, [], _ => []
  | bj :: bs, rj :: rest, prevNew =>
    let above := (rest.head?).getD 0
    let nj := if bj = c then rj + 1 else max above prevNew
    nj :: lcsRowGo c bs rest nj

/-- Length of a longest common subsequence, by row dynamic programming. -/
def lcsLen (a b : Str) : Nat :=
  ((a.foldl (fun row c => 0 :: lcsRowGo c b row 0)
      (List.replicate (b.length + 1) 0)).getLast?).getD 0

/-- fuzzball basic ratio on already-processed strings: Levenshtein with
substitution weight 2 never substitutes, so the distance is
`|a|+|b| − 2·LCS` and the ratio is `round(200·LCS/(|a|+|b|))`
(`Math.round`, half away from zero). -/
def ratioRaw (a b : Str) : Nat :=
  let t := a.length + b.length
  if t = 0 then 100 else (400 * lcsLen a b + t) / (2 * t)

/-- fuzzball `fuzz.ratio` (with its default `full_process`). -/
def ratioVal (s1 s2 : Str) : Nat := ratioRaw (fullProcess s1) (fullProcess s2)

/-- fuzzball tokenization: unique non-whitespace runs of the processed
string. -/
def tokensOf (s : Str) : List Str :=
  dedupFirst ((splitRuns isWs (fullProcess s)).filter (· ≠ []))

/-- fuzzball `fuzz.token_set_ratio`. -/
def tokenSetVal (s1 s2 : Str) : Nat :=
  let t1 := tokensOf s1
  let t2 := tokensOf s2
  let inter := lexSort (t1.filter fun t => t2.contains t)
  let d1 := lexSort (t1.filter fun t => ¬ t2.contains t)
  let d2 := lexSort (t2.filter fun t => ¬ t1.contains t)
  let sect := joinS (lit " ") inter
  let c1 := trim (sect ++ lit " " ++ joinS (lit " ") d1)
  let c2 := trim (sect ++ lit " " ++ joinS (lit " ") d2)
  max (ratioRaw sect c1) (max (ratioRaw sect c2) (ratioRaw c1 c2))

end Resume.Fuzz

namespace Resume.Rx

/-!
Hand-compiled matchers for the fixed regular expressions in the source,
with JavaScript semantics: leftmost match, greedy quantifiers with
backtracking, alternatives tried in order.  Matchers named `…At` try to
match at the start of the given character list; `scanFirst` supplies the
leftmost-match scan of `String.prototype.match` (without `/g`).
-/

/-- Length of the leading run of characters satisfying `p`. -/
def runLen (p : Char → Bool) (cs : Str) : Nat := (cs.takeWhile p).length

/-- Leftmost-match scan: try `f` at every position, leftmost first. -/
def scanFirst {α : Type} (f : Str → Option α) : Str → Option α
  | [] => f []
  | c :: rest =>
    match f (c :: rest) with
    | some r => some r
    | none => scanFirst f rest

/-- Leftmost-match scan that also returns the match position. -/
def scanFirstPos {α : Type} (f : Str → Option α) : Str → Option (Nat × α)
  | [] => (f []).map ((0, ·))
  | c :: rest =>
    match f (c :: rest) with
    | some r => some (0, r)
    | none => (scanFirstPos f rest).map fun ir => (ir.1 + 1, ir.2)

/-- Case-insensitive literal at the current position (`w` is given
lowercased); returns the matched source text and the rest. -/
def ciLitAt (w : Str) (cs : Str) : Option (Str × Str) :=
  let tk := cs.take w.length
  if tk.length = w.length ∧ tk.map Char.toLower = w then some (tk, cs.drop w.length)
  else none

/-- `[A-Za-z]{3,9}\s+\d{4}` at the current position (greedy letter run: a
run longer than 9 cannot back off onto a letter, so it fails). Returns
the captured text and the rest. -/
def monthYearAt (cs : Str) : Option (Str × Str) :=
  let r := runLen (fun c => c.isAlpha) cs
  if 3 ≤ r ∧ r ≤ 9 then
    let afterA := cs.drop r
    let w := runLen isWs afterA
    if 1 ≤ w then
      let afterW := afterA.drop w
      let ds := afterW.take 4
      if ds.length = 4 ∧ ds.all Char.isDigit then
        some (cs.take r ++ afterA.take w ++ ds, afterW.drop 4)
      else none
    else none
  else none

/-- `\d{4}` at the current position. -/
def fourDigitsAt (cs : Str) : Option (Str × Str) :=
  let ds := cs.take 4
  if ds.length = 4 ∧ ds.all Char.isDigit then some (ds, cs.drop 4) else none

/-- The dash class `[–\-—]` of the date-range patterns. -/
def isDash (c : Char) : Bool := c = '–' || c = '-' || c = '—'

/-- `\s*[–\-—]\s*`; returns the rest after the separator. -/
def sepAt (cs : Str) : Option Str :=
  let after1 := cs.drop (runLen isWs cs)
  match after1 with
  | [] => none
  | d :: rest => if isDash d then some (rest.drop (runLen isWs rest)) else none

/-- `(Present|Current|Ongoing)` case-insensitively, alternatives in order. -/
def sentinel3At (cs : Str) : Option (Str × Str) :=
  match ciLitAt (lit "present") cs with
  | some r => some r
  | none =>
    match ciLitAt (lit "current") cs with
    | some r => some r
    | none => ciLitAt (lit "ongoing") cs

/-- resumeParser2 pattern 1:
`([A-Za-z]{3,9}\s+\d{4})\s*[–\-—]\s*(Present|Current|Ongoing)` (`/i`). -/
def rangeSentinelAt (cs : Str) : Option (Str × Str) :=
  match monthYearAt cs with
  | none => none
  | some (g1, r1) =>
    match sepAt r1 with
    | none => none
    | some r2 =>
      match sentinel3At r2 with
      | none => none
      | some (g2, _) => some (g1, g2)

/-- resumeParser2 patterns 2 and 4:
`([A-Za-z]{3,9}\s+\d{4})\s*[–\-—]\s*([A-Za-z]{3,9}\s+\d{4})` (`/i`). -/
def rangeMonthsAt (cs : Str) : Option (Str × Str) :=
  match monthYearAt cs with
  | none => none
  | some (g1, r1) =>
    match sepAt r1 with
    | none => none
    | some r2 =>
      match monthYearAt r2 with
      | none => none
      | some (g2, _) => some (g1, g2)

/-- resumeParser2 pattern 3: `(\d{4})\s*[–\-—]\s*(\d{4})`; also the
year-range pattern of the education parsers.  Returns
(whole match, group 1, group 2). -/
def rangeYearsAt (cs : Str) : Option (Str × Str × Str) :=
  match fourDigitsAt cs with
  | none => none
  | some (g1, r1) =>
    let w1 := r1.take (runLen isWs r1)
    let after1 := r1.drop (runLen isWs r1)
    match after1 with
    | [] => none
    | d :: rest =>
      if isDash d then
        let w2 := rest.take (runLen isWs rest)
        let after2 := rest.drop (runLen isWs rest)
        match fourDigitsAt after2 with
        | none => none
        | some (g2, _) => some (g1 ++ w1 ++ [d] ++ w2 ++ g2, g1, g2)
      else none

/-- The shared date-range pattern of `extractDatesFromText`,
`parseWorkExperience` and `parseRawExperience`:
`([A-Za-z]{3,9}\s+\d{4})\s*[–\-—]\s*([A-Za-z]{3,9}\s+\d{4}|Present|Current)`
(`/i`); the alternatives of group 2 are tried in order. -/
def range000At (cs : Str) : Option (Str × Str) :=
  match monthYearAt cs with
  | none => none
  | some (g1, r1) =>
    match sepAt r1 with
    | none => none
    | some r2 =>
      match monthYearAt r2 with
      | some (g2, _) => some (g1, g2)
      | none =>
        match ciLitAt (lit "present") r2 with
        | some (g2, _) => some (g1, g2)
        | none =>
          match ciLitAt (lit "current") r2 with
          | some (g2, _) => some (g1, g2)
          | none => none

/-- First match of the shared range pattern in the text. -/
def findRange000 (s : Str) : Option (Str × Str) := scanFirst range000At s

def findRangeSentinel (s : Str) : Option (Str × Str) := scanFirst rangeSentinelAt s

def findRangeMonths (s : Str) : Option (Str × Str) := scanFirst rangeMonthsAt s

def findRangeYears (s : Str) : Option (Str × Str × Str) := scanFirst rangeYearsAt s

/-- `([A-Za-z]{3,9}\s+\d{4})` — the single-date fallback pattern. -/
def findSingleMonthYear (s : Str) : Option Str :=
  (scanFirst monthYearAt s).map (·.1)

/-- `/\d{4}/.test` — does the string contain four consecutive digits? -/
def hasFourDigits (s : Str) : Bool := (scanFirst fourDigitsAt s).isSome

/-- `/\d{4}/g` — all (non-overlapping, left to right) four-digit runs.
On a match at `c :: t` the matched text is `(c :: t).take 4` and the scan
resumes after it, at `t.drop 3`; the fuel argument (one per character
position, so `cs.length` is always sufficient) keeps the recursion
structural. -/
def allFourDigitsGo : Nat → Str → List Str
  | 0, _ => []
  | _, [] => []
  | fuel + 1, c :: t =>
    if (fourDigitsAt (c :: t)).isSome then
      ((c :: t).take 4) :: allFourDigitsGo fuel (t.drop 3)
    else allFourDigitsGo fuel t

def allFourDigits (cs : Str) : List Str := allFourDigitsGo cs.length cs

/-- `/^\d/.test`. -/
def firstIsDigit (s : Str) : Bool :=
  match s with
  | c :: _ => c.isDigit
  | [] => false

/-- `/^[A-Z]/.test`. -/
def firstIsUpper (s : Str) : Bool :=
  match s with
  | c :: _ => decide ('A' ≤ c) && decide (c ≤ 'Z')
  | [] => false

/-- `/^[A-Z][a-z\s]+$/.test`. -/
def headerLike (s : Str) : Bool :=
  match s with
  | c :: rest =>
    decide ('A' ≤ c) && decide (c ≤ 'Z') && decide (rest.length ≥ 1) &&
      rest.all fun d => (decide ('a' ≤ d) && decide (d ≤ 'z')) || isWs d
  | [] => false

end Resume.Rx

namespace Resume.Rx

/-- `[a-zA-Z0-9._%+-]` — the local-part class of the email pattern. -/
def emailLocalChar (c : Char) : Bool :=
  c.isAlphanum || c = '.' || c = '_' || c = '%' || c = '+' || c = '-'

/-- `[a-zA-Z0-9.-]` — the domain class of the email pattern. -/
def emailDomChar (c : Char) : Bool := c.isAlphanum || c = '.' || c = '-'

/-- Backtracking for `[a-zA-Z0-9.-]+\.[a-zA-Z]{2,}`: try domain-run
lengths longest first; accept when a literal dot and at least two letters
follow.  Returns the matched `domain.tld` text. -/
def emailTailGo (rest : Str) : Nat → Option Str
  | 0 => none
  | k + 1 =>
    match rest.drop (k + 1) with
    | '.' :: t =>
      let lr := t.takeWhile Char.isAlpha
      if 2 ≤ lr.length then some (rest.take (k + 1) ++ '.' :: lr)
      else emailTailGo rest k
    | _ => emailTailGo rest k

/-- `[a-zA-Z0-9._%+-]+@[a-zA-Z0-9.-]+\.[a-zA-Z]{2,}` at the current
position. -/
def emailAt (cs : Str) : Option Str :=
  let l := runLen emailLocalChar cs
  if l = 0 then none
  else
    match cs.drop l with
    | '@' :: rest =>
      let m := runLen emailDomChar rest
      if m = 0 then none
      else
        match emailTailGo rest m with
        | some t => some (cs.take l ++ '@' :: t)
        | none => none
    | _ => none

/-- First email match of `extractContactInfo`. -/
def findEmail (s : Str) : Option Str := scanFirst emailAt s

/-- `\+91[-\s]?[6-9]\d{9}` at the current position (optional separator
tried greedily, then without). -/
def phoneAlt1At (cs : Str) : Option Str :=
  match cs with
  | '+' :: '9' :: '1' :: rest =>
    let tryCore : Str → Str → Option Str := fun pre ds =>
      match ds with
      | d :: more =>
        if decide ('6' ≤ d) && decide (d ≤ '9') then
          let nine := more.take 9
          if nine.length = 9 ∧ nine.all Char.isDigit then
            some ('+' :: '9' :: '1' :: pre ++ d :: nine)
          else none
        else none
      | [] => none
    match rest with
    | c :: more =>
      if c = '-' || isWs c then
        match tryCore [c] more with
        | some m => some m
        | none => tryCore [] rest
      else tryCore [] rest
    | [] => none
  | _ => none

/-- `[-\s]?\d{8,15}` (greedy): separator first if possible, then 8–15
digits (greedy run capped at 15). -/
def phoneTail2 (cs : Str) : Option Str :=
  let tryDigits : Str → Option Str := fun ds =>
    let r := runLen Char.isDigit ds
    if 8 ≤ r then some (ds.take (min r 15)) else none
  match cs with
  | c :: rest =>
    if c = '-' || isWs c then
      match tryDigits rest with
      | some m => some (c :: m)
      | none => tryDigits cs
    else tryDigits cs
  | [] => none

/-- `\+\d{1,3}[-\s]?\d{8,15}` at the current position; country-code length
tried greedily from 3 down to 1. -/
def phoneA2Go (rest : Str) : Nat → Option Str
  | 0 => none
  | k + 1 =>
    match phoneTail2 (rest.drop (k + 1)) with
    | some t => some ('+' :: rest.take (k + 1) ++ t)
    | none => phoneA2Go rest k

def phoneAlt2At (cs : Str) : Option Str :=
  match cs with
  | '+' :: rest => phoneA2Go rest (min (runLen Char.isDigit rest) 3)
  | _ => none

/-- The full phone pattern `\+91[-\s]?[6-9]\d{9}|\+\d{1,3}[-\s]?\d{8,15}`
at the current position. -/
def phoneAt (cs : Str) : Option Str :=
  match phoneAlt1At cs with
  | some m => some m
  | none => phoneAlt2At cs

def findPhone (s : Str) : Option Str := scanFirst phoneAt s

/-- `[^\s|\]]` — the tail class of the URL patterns. -/
def urlTailChar (c : Char) : Bool := !(isWs c || c = '|' || c = ']')

/-- `(?:https?:\/\/)?(?:www\.)?<site>\/[^\s|\]]+` (`/i`) at the current
position, with full backtracking over the two optional groups. -/
def urlAt (site : Str) (cs : Str) : Option Str :=
  let protoCands : List (Str × Str) :=
    (match ciLitAt (lit "https://") cs with
     | some r => [r]
     | none => []) ++
    (match ciLitAt (lit "http://") cs with
     | some r => [r]
     | none => []) ++ [([], cs)]
  let step : Str × Str → Option Str := fun pr =>
    let wwwCands : List (Str × Str) :=
      (match ciLitAt (lit "www.") pr.2 with
       | some r => [r]
       | none => []) ++ [([], pr.2)]
    let step2 : Str × Str → Option Str := fun wr =>
      match ciLitAt site wr.2 with
      | some (tk, rest) =>
        let run := rest.takeWhile urlTailChar
        if 1 ≤ run.length then some (pr.1 ++ wr.1 ++ tk ++ run) else none
      | none => none
    wwwCands.findSome? step2
  protoCands.findSome? step

def findLinkedin (s : Str) : Option Str := scanFirst (urlAt (lit "linkedin.com/")) s

def findGithubUrl (s : Str) : Option Str := scanFirst (urlAt (lit "github.com/")) s

/-- `GitHub[^\s]*` (`/i`) at the current position. -/
def githubMarkAt (cs : Str) : Option (Str × Str) :=
  match ciLitAt (lit "github") cs with
  | some (tk, rest) =>
    let run := rest.takeWhile fun c => !isWs c
    some (tk ++ run, rest.drop run.length)
  | none => none

/-- `Live[^\s]*` (`/i`) at the current position. -/
def liveMarkAt (cs : Str) : Option (Str × Str) :=
  match ciLitAt (lit "live") cs with
  | some (tk, rest) =>
    let run := rest.takeWhile fun c => !isWs c
    some (tk ++ run, rest.drop run.length)
  | none => none

def findGithubMark (s : Str) : Option Str := (scanFirst githubMarkAt s).map (·.1)

def findLiveMark (s : Str) : Option Str := (scanFirst liveMarkAt s).map (·.1)

/-- `GitHub[^\s]*|Live[^\s]*` at the current position. -/
def markAt (cs : Str) : Option (Str × Str) :=
  match githubMarkAt cs with
  | some r => some r
  | none => liveMarkAt cs

/-- `replace(/GitHub[^\s]*|Live[^\s]*/gi, '')` — global removal of the
link markers (JS `replace` with `/g`: scan left to right, skip each
match, copy non-matching characters).  A match consumes at least four
characters, so fuel `cs.length` is always sufficient; the fuel keeps the
recursion structural. -/
def stripMarksGo : Nat → Str → Str
  | 0, cs => cs
  | _, [] => []
  | fuel + 1, c :: t =>
    match markAt (c :: t) with
    | some (_, rest) => stripMarksGo fuel rest
    | none => c :: stripMarksGo fuel t

def stripMarks (cs : Str) : Str := stripMarksGo cs.length cs

/-- `CGPA\s*:?\s*([\d.]+)` (`/i`) at the current position; returns
group 1. -/
def cgpaAt (cs : Str) : Option Str :=
  match ciLitAt (lit "cgpa") cs with
  | some (_, r1) =>
    let r2 := r1.drop (runLen isWs r1)
    let r3 := match r2 with
      | ':' :: t => t
      | _ => r2
    let r4 := r3.drop (runLen isWs r3)
    let run := r4.takeWhile fun c => c.isDigit || c = '.'
    if 1 ≤ run.length then some run else none
  | none => none

def findCgpa (s : Str) : Option Str := scanFirst cgpaAt s

/-- Alternatives of the degree pattern
`B\.?Tech|Bachelor|Master|M\.?Tech|B\.?Sc|M\.?Sc|B\.?A|M\.?A|BBA|MBA|ACA`
(`/i`), in source order; for each `X\.?Y` the variant with the dot is
greedily tried first. -/
def degAlts : List (List Str) :=
  [[lit "b.tech", lit "btech"], [lit "bachelor"], [lit "master"],
   [lit "m.tech", lit "mtech"], [lit "b.sc", lit "bsc"], [lit "m.sc", lit "msc"],
   [lit "b.a", lit "ba"], [lit "m.a", lit "ma"], [lit "bba"], [lit "mba"],
   [lit "aca"]]

/-- Try a list of alternatives (each a list of greedy variants) at the
current position, in order; returns the matched source text. -/
def altsAt (alts : List (List Str)) (cs : Str) : Option Str :=
  alts.findSome? fun alt => alt.findSome? fun l => (ciLitAt l cs).map (·.1)

/-- First degree match (`line.match(degreePattern)`), with its position. -/
def findDegree (s : Str) : Option (Nat × Str) := scanFirstPos (altsAt degAlts) s

/-- `degreePattern.test` variant of `parseRawEducation`, whose pattern
additionally ends in `|University|College`. -/
def degTestRP2 (s : Str) : Bool :=
  (scanFirst (altsAt (degAlts ++ [[lit "university"], [lit "college"]])) s).isSome

/-- `degreePattern.test` of `parseEducation` (no extra alternatives). -/
def degTest000 (s : Str) : Bool := (scanFirst (altsAt degAlts) s).isSome

/-- Alternatives of the field-of-study pattern
`(Computer Science|Engineering|Commerce|Arts|Science|Management|Accounting)`
(`/i`), in source order. -/
def fieldAlts : List (List Str) :=
  [[lit "computer science"], [lit "engineering"], [lit "commerce"],
   [lit "arts"], [lit "science"], [lit "management"], [lit "accounting"]]

def findField (s : Str) : Option Str := scanFirst (altsAt fieldAlts) s

/-- `line.split(degreePattern)[0]` — the text before the first degree
match (the whole line when there is no match). -/
def beforeDegree (s : Str) : Str :=
  match findDegree s with
  | some (i, _) => s.take i
  | none => s

/-- `line.replace(degreePattern, '')` — remove the first degree match. -/
def removeFirstDegree (s : Str) : Str :=
  match findDegree s with
  | some (i, m) => s.take i ++ s.drop (i + m.length)
  | none => s

/-- `replace(/\d{4}.*/, '')` — cut from the first four-digit run to the
end of the line. -/
def cutFromFourDigits (s : Str) : Str :=
  match scanFirstPos fourDigitsAt s with
  | some (i, _) => s.take i
  | none => s

/-- `replace(/\./g, '')` — drop all dots. -/
def removeDots (s : Str) : Str := s.filter (· ≠ '.')

/-- `replace(/^•\s*/, '')` — strip one leading bullet and the whitespace
after it. -/
def stripBullet (s : Str) : Str :=
  match s with
  | '•' :: t => t.dropWhile isWs
  | _ => s

/-- `/^([^:]+):\s*(.+)$/` — the categorised-skills pattern of
`parseSkills`.  Group 1 is the (non-empty) text before the first colon;
group 2 is the rest after the colon with as much leading whitespace
removed as the greedy `\s*` can take while `.+` still matches one
character. -/
def categoryMatch (s : Str) : Option (Str × Str) :=
  match s.findIdx? (· = ':') with
  | some i =>
    if i = 0 then none
    else
      let afterC := s.drop (i + 1)
      if afterC.length = 0 then none
      else
        let w := runLen isWs afterC
        some (s.take i, afterC.drop (min w (afterC.length - 1)))
  | none => none

/-- `indexOf(':')`-based label stripping of the primary skills parser:
the text after the first colon, or the whole line. -/
def afterFirstColon (s : Str) : Str :=
  match s.findIdx? (· = ':') with
  | some i => s.drop (i + 1)
  | none => s

/-- JS `String.prototype.split` with a plain string separator (used as
`line.split('|')` and `split('\n')`); all separators here are single
characters. -/
def splitOnChar (sep : Char) (s : Str) : List Str := splitChar (· = sep) s

/-- `s.split(pat)[0]` for a plain string `pat`: the text before the first
occurrence of `pat`, or all of `s` when `pat` does not occur. -/
def beforeFirstOcc : Str → Str → Str
  | _, [] => []
  | [], _ :: _ => []
  | c :: t, p :: ps =>
    if leadEq (c :: t) (p :: ps) then [] else c :: beforeFirstOcc t (p :: ps)

/-- JS `String.prototype.replace` with a plain string argument: replace
the first occurrence of `pat` (here: by the empty string). -/
def removeFirstOcc (s pat : Str) : Str :=
  match s, pat with
  | s, [] => s
  | s, _ :: _ =>
    match s with
    | [] => []
    | c :: t => if leadEq (c :: t) pat then (c :: t).drop pat.length
                else c :: removeFirstOcc t pat

end Resume.Rx

namespace Resume

/-- The fixed set of section types of the keyword lexicons. -/
inductive SecType where
  | summary | education | experience | articleship | skills
  | projects | certifications | languages | hobbies
deriving DecidableEq, Repr

/-- `{ startDate, endDate }` as returned by the date-range extractors
(always strings; `""` is the unknown sentinel). -/
structure DateRange where
  startDate : Str
  endDate : Str
deriving DecidableEq, Repr

structure EduEntry where
  institution : Str
  degree : Str
  fieldOfStudy : Str
  startDate : Str
  endDate : Str
  /-- the `cgpa` key is only added when the CGPA pattern matched -/
  cgpa : Option Str
deriving DecidableEq, Repr

/-- Experience entry of the enhanced pipeline's `parseWorkExperience`
(which computes a location but never stores one). -/
structure ExpA where
  company : Str
  position : Str
  startDate : Str
  endDate : Str
  overview : List Str
deriving DecidableEq, Repr

/-- Experience entry of `parseRawExperience` (with `location`). -/
structure ExpB where
  company : Str
  position : Str
  location : Str
  startDate : Str
  endDate : Str
  overview : List Str
deriving DecidableEq, Repr

structure ProjEntry where
  title : Str
  description : List Str
  technologies : Str
  link : Str
deriving DecidableEq, Repr

structure CertEntry where
  name : Str
  issuer : Str
  date : Str
deriving DecidableEq, Repr

structure Contact where
  email : Str
  phone : Str
  linkedin : Str
  github : Str
deriving DecidableEq, Repr

/-- Strip the `\r` of a `\r\n` separator after splitting on `\n`
(`text.split(/\r?\n/)`). -/
def stripCR (p : Str) : Str :=
  match p.getLast? with
  | some c => if c = '\r' then p.dropLast else p
  | none => p

def splitLinesJs (text : Str) : List Str := (Rx.splitOnChar '\n' text).map stripCR

/-- `text.split(/\r?\n/).map(l => l.trim()).filter(Boolean)` — the line
normalizer shared by every pipeline. -/
def normLines (text : Str) : List Str :=
  ((splitLinesJs text).map trim).filter fun l => !l.isEmpty

/-- `extractContactInfo` (textually identical in both source files). -/
def extractContactInfo (text : Str) : Contact :=
  { email := (Rx.findEmail text).getD []
    phone := (Rx.findPhone text).getD []
    linkedin := (Rx.findLinkedin text).getD []
    github := (Rx.findGithubUrl text).getD [] }

end Resume

namespace Resume.RP2

/-!
Embedding of `resumeParser2.js`: the primary strategy (`detectSections`,
`extractDateRange`, `parseRawExperience`, `parseRawEducation`,
`parseRawProjects`, `parseResume`) and the secondary strategy
(`extractRawSections`, `parseResumeSecondaryApproach`).
-/

/-- The `sectionKeywords` table, in `Object.entries` order. -/
def sectionKeywords : List (SecType × List Str) :=
  [(.summary, [lit "summary", lit "profile", lit "about", lit "objective",
      lit "career objective", lit "job objective", lit "profile summary",
      lit "professional summary"]),
   (.education, [lit "education", lit "academic", lit "qualification",
      lit "educational background", lit "academic background"]),
   (.experience, [lit "experience", lit "work experience", lit "employment",
      lit "professional experience", lit "career history", lit "work history"]),
   (.articleship, [lit "articleship", lit "article assistant", lit "training",
      lit "internship"]),
   (.skills, [lit "skills", lit "technical skills", lit "core competencies",
      lit "competencies", lit "technologies", lit "expertise"]),
   (.projects, [lit "projects", lit "key projects", lit "notable projects",
      lit "project experience"]),
   (.certifications, [lit "certifications", lit "certificates", lit "awards",
      lit "accolades", lit "achievements", lit "honors", lit "achievement",
      lit "position of responsibility",
      lit "achievements & position of responsibilities"]),
   (.languages, [lit "languages", lit "language", lit "spoken languages",
      lit "language known"]),
   (.hobbies, [lit "hobbies", lit "interests", lit "personal interests",
      lit "activities"])]

/-- A span pushed by `detectSections` before end indices are assigned. -/
structure RawSec where
  type : SecType
  startIndex : Nat
  header : Str
  originalLine : Str
deriving DecidableEq, Repr

/-- A span after end-index assignment. -/
structure Sec where
  type : SecType
  startIndex : Nat
  endIndex : Nat
  header : Str
  originalLine : Str
deriving DecidableEq, Repr

/-- One keyword's acceptance test: exact match, close match (the line
contains the keyword and is at most 15 characters longer), or fuzzy match
(ratio above 90). -/
def qualifies (line kw : Str) : Bool :=
  line == kw || (containsS line kw && decide (line.length ≤ kw.length + 15)) ||
    decide (90 < Fuzz.ratioVal line kw)

/-- The spans pushed for one line: lines shorter than 3 characters,
bullet lines and lines starting with a digit are skipped; otherwise each
section type contributes a span on its first qualifying keyword (the
`break` leaves only the keyword loop, not the type loop). -/
def lineSecs (i : Nat) (l : Str) : List RawSec :=
  let line := toLowerS (trim l)
  if decide (line.length < 3) || startsWithS line (lit "•") || Rx.firstIsDigit line then []
  else
    sectionKeywords.filterMap fun tk =>
      ((tk.2).find? (qualifies line)).map fun _ =>
        { type := tk.1, startIndex := i, header := trim l, originalLine := line }

def detectGo (i : Nat) : List Str → List RawSec
  | [] => []
  | l :: rest => lineSecs i l ++ detectGo (i + 1) rest

/-- Assign each span's end index: the next span's start index, or the
document length for the last span. -/
def assignEnds (total : Nat) : List RawSec → List Sec
  | [] => []
  | [a] => [⟨a.type, a.startIndex, total, a.header, a.originalLine⟩]
  | a :: b :: t =>
    ⟨a.type, a.startIndex, b.startIndex, a.header, a.originalLine⟩ :: assignEnds total (b :: t)

/-- `detectSections`: push spans line by line, sort by start index
(stably, as JS `Array.sort`), assign end indices. -/
def detectSections (lines : List Str) : List Sec :=
  assignEnds lines.length
    (List.insertionSort (fun a b => a.startIndex ≤ b.startIndex) (detectGo 0 lines))

/-- The name predicate of `parseResume` and
`parseResumeSecondaryApproach`: 2–4 whitespace-separated words, no
`@`/`+`/digit and no resume/cv keyword, and every word's first character
equal to its own upper-casing. -/
def nameCand (line : Str) : Bool :=
  let words := splitRuns isWs line
  decide (2 ≤ words.length) && decide (words.length ≤ 4) &&
    !(line.any (fun c => c = '@' || c = '+' || c.isDigit) ||
      ciContains line (lit "resume") || ciContains line (lit "cv")) &&
    words.all fun w =>
      match w.head? with
      | some c => c = c.toUpper
      | none => true

/-- `lines.find(line => …) || lines[0] || ""` — scans all lines. -/
def rp2FindName (lines : List Str) : Str :=
  (lines.find? nameCand).getD ((lines.head?).getD [])

/-- The shared body of `extractDateRange`'s pattern loop. -/
def edrBody (cp : Str → Option Str) (m1 m2 : Str) : DateRange :=
  let low := toLowerS m2
  let pres := containsS low (lit "present") || containsS low (lit "current") ||
    containsS low (lit "ongoing")
  { startDate := (cp m1).getD []
    endDate := if pres then lit "Present" else (cp m2).getD [] }

/-- `extractDateRange`: try the four patterns in order (patterns 2 and 4
are textually identical), return empty strings when none matches. -/
def extractDateRange (cp : Str → Option Str) (text : Str) : DateRange :=
  match Rx.findRangeSentinel text with
  | some (m1, m2) => edrBody cp m1 m2
  | none =>
    match Rx.findRangeMonths text with
    | some (m1, m2) => edrBody cp m1 m2
    | none =>
      match Rx.findRangeYears text with
      | some (_, m1, m2) => edrBody cp m1 m2
      | none =>
        match Rx.findRangeMonths text with
        | some (m1, m2) => edrBody cp m1 m2
        | none => { startDate := [], endDate := [] }

/-- Lookahead of `parseRawExperience` after a confirmed date line: an
optional non-bullet position line, an optional short (`< 30` after trim)
non-bullet location line nested inside the position branch, then the
following bullet run.  Returns (position, location, bullets, rest of the
scan). -/
def expConsume (rest2 : List Str) : Str × Str × List Str × List Str :=
  let posTaken := match rest2.head? with
    | some p => !startsWithS p (lit "•")
    | none => false
  let position := if posTaken then trim ((rest2.head?).getD []) else []
  let locTaken := posTaken &&
    (match (rest2.drop 1).head? with
     | some q => !startsWithS q (lit "•") && decide ((trim q).length < 30)
     | none => false)
  let location := if locTaken then trim (((rest2.drop 1).head?).getD []) else []
  let rest4 := rest2.drop ((if posTaken then 1 else 0) + (if locTaken then 1 else 0))
  let bullets := (rest4.takeWhile fun x => startsWithS x (lit "•")).map
    fun x => trim (x.drop 1)
  let rest5 := rest4.dropWhile fun x => startsWithS x (lit "•")
  (position, location, bullets, rest5)

theorem expConsume_rest_le (rest2 : List Str) :
    (expConsume rest2).2.2.2.length ≤ rest2.length := by
  simp only [expConsume]
  refine Nat.le_trans (length_dropWhile_le _ _) ?_
  rw [List.length_drop]
  omega

/-- `parseRawExperience`: scan for a standalone candidate company line
(non-empty, non-bullet, no four-digit run, longer than 2); confirm when
the next line matches the date-range pattern; then consume the lookahead
of `expConsume` and continue after it.  Every recursive call strictly
shrinks the line list, so fuel `lines.length + 1` is always sufficient;
the fuel keeps the recursion structural. -/
def prExpGo (cp : Str → Option Str) : Nat → List Str → List ExpB
  | 0, _ => []
  | _, [] => []
  | fuel + 1, l :: rest =>
    let line := trim l
    if !line.isEmpty && !startsWithS line (lit "•") && !Rx.hasFourDigits line &&
        decide (2 < line.length) then
      match rest with
      | [] => []
      | nl :: rest2 =>
        let next := trim nl
        if (Rx.findRange000 next).isSome then
          let c := expConsume rest2
          let dates := extractDateRange cp next
          { company := line, position := c.1, location := c.2.1,
            startDate := dates.startDate, endDate := dates.endDate,
            overview := c.2.2.1 } :: prExpGo cp fuel c.2.2.2
        else prExpGo cp fuel (nl :: rest2)
    else prExpGo cp fuel rest

def parseRawExperience (cp : Str → Option Str) (lines : List Str) : List ExpB :=
  prExpGo cp (lines.length + 1) lines

/-- `parseRawEducation`: one entry per non-blank line matching the degree
test pattern (which additionally accepts `University|College`). -/
def parseRawEducation (lines : List Str) : List EduEntry :=
  lines.filterMap fun line =>
    if (trim line).isEmpty then none
    else if Rx.degTestRP2 line then
      let yearMatch := Rx.findRangeYears line
      let degreeMatch := Rx.scanFirst (Rx.altsAt Rx.degAlts) line
      let institution0 := match degreeMatch with
        | some dm => trim (Rx.beforeFirstOcc line dm)
        | none => line
      let institution1 := match yearMatch with
        | some (whole, _, _) => trim (Rx.removeFirstOcc institution0 whole)
        | none => institution0
      some
        { institution := if institution1.isEmpty then trim line else institution1
          degree := match degreeMatch with
            | some dm => Rx.removeDots dm
            | none => []
          fieldOfStudy := (Rx.findField line).getD []
          startDate := match yearMatch with
            | some (_, y1, _) => y1 ++ lit "-01-01"
            | none => []
          endDate := match yearMatch with
            | some (_, _, y2) => y2 ++ lit "-12-31"
            | none => []
          cgpa := Rx.findCgpa line }
    else none

/-- `parseRawProjects`: a project starts at a non-bullet line containing
`|`; the immediately following bullet run is its description.  Every
recursive call strictly shrinks the line list, so fuel
`lines.length + 1` is always sufficient; the fuel keeps the recursion
structural. -/
def prProjGo : Nat → List Str → List ProjEntry
  | 0, _ => []
  | _, [] => []
  | fuel + 1, l :: rest =>
    let line := trim l
    if containsS line (lit "|") && !startsWithS line (lit "•") then
      let parts := Rx.splitOnChar '|' line
      let title := trim ((parts.head?).getD [])
      let technologies := match parts.get? 1 with
        | some p => trim p
        | none => []
      let bullets := (rest.takeWhile fun x => startsWithS x (lit "•")).map
        fun x => trim (x.drop 1)
      { title := title, description := bullets,
        technologies := trim (Rx.stripMarks technologies),
        link := match Rx.findGithubMark technologies with
          | some g => g
          | none => match Rx.findLiveMark technologies with
            | some v => v
            | none => [] } ::
        prProjGo fuel (rest.dropWhile fun x => startsWithS x (lit "•"))
    else prProjGo fuel rest

def parseRawProjects (lines : List Str) : List ProjEntry :=
  prProjGo (lines.length + 1) lines

/-- The skill-token split shared by both strategies of
`resumeParser2.js`: split on `[,|•]+`, trim, keep tokens of length
2–49. -/
def skillTokens (s : Str) : List Str :=
  ((splitRuns (fun c => c = ',' || c = '|' || c = '•') s).map trim).filter
    fun t => decide (1 < t.length) && decide (t.length < 50)

/-- The full record shape returned by both strategies of
`resumeParser2.js` (no field is ever pruned). -/
structure RecordB where
  name : Str
  email : Str
  phone : Str
  address : Str
  summary : Str
  linkedin : Str
  jobRole : List Str
  education : List EduEntry
  workExperience : List ExpB
  skills : List Str
  projects : List ProjEntry
  certifications : List CertEntry
  languages : List Str
  hobbies : List Str
deriving DecidableEq, Repr

/-- `getSectionLines` of the primary strategy: interior slice of the
first span of the given type, keeping lines with non-empty trim. -/
def getSectionLines (sections : List Sec) (lines : List Str) (ty : SecType) : List Str :=
  match sections.find? fun s => s.type == ty with
  | none => []
  | some sec =>
    ((lines.drop (sec.startIndex + 1)).take (sec.endIndex - (sec.startIndex + 1))).filter
      fun line => !(trim line).isEmpty

/-- The primary strategy `parseResume` of `resumeParser2.js`. -/
def parseResume (cp : Str → Option Str) (text : Str) : RecordB :=
  let lines := normLines text
  let sections := detectSections lines
  let contactInfo := extractContactInfo text
  let name := rp2FindName lines
  let experienceLines := getSectionLines sections lines .experience
  let educationLines := getSectionLines sections lines .education
  let skillsLines := getSectionLines sections lines .skills
  let projectsLines := getSectionLines sections lines .projects
  let certificationsLines := getSectionLines sections lines .certifications
  let workExperience := parseRawExperience cp experienceLines
  let education := parseRawEducation educationLines
  let projects := parseRawProjects projectsLines
  let skills := skillsLines.flatMap fun line => skillTokens (Rx.afterFirstColon line)
  let certifications := certificationsLines.filterMap fun line =>
    if startsWithS line (lit "•") || decide (10 < (trim line).length) then
      some { name := trim (Rx.stripBullet line), issuer := [], date := [] }
    else none
  let jobRoles := (workExperience.map (·.position)).filter
    fun pos => !pos.isEmpty && decide (0 < (trim pos).length)
  { name := name, email := contactInfo.email, phone := contactInfo.phone,
    address := [], summary := [], linkedin := contactInfo.linkedin,
    jobRole := jobRoles, education := education,
    workExperience := workExperience, skills := dedupFirst skills,
    projects := projects, certifications := certifications,
    languages := [], hobbies := [] }

end Resume.RP2

namespace Resume.RP2

/-- The `commonSections` list of `extractRawSections`, in source order. -/
def commonSections : List Str :=
  [lit "experience", lit "education", lit "skills", lit "projects",
   lit "achievements", lit "certifications"]

/-- A section boundary of the secondary strategy. -/
structure RawBound where
  name : Str
  index : Nat
  originalName : Str
deriving DecidableEq, Repr

/-- The per-line boundary scan of `extractRawSections`: the first common
section whose name the lowercased line contains, with a length slack of
20; the `break` leaves the section loop, so each line yields at most one
boundary. -/
def boundsGo (i : Nat) : List Str → List RawBound
  | [] => []
  | l :: rest =>
    let line := toLowerS l
    match commonSections.find? fun sec =>
        containsS line sec && decide (line.length < sec.length + 20) with
    | some sec => ⟨sec, i, l⟩ :: boundsGo (i + 1) rest
    | none => boundsGo (i + 1) rest

/-- One raw section of the secondary strategy. -/
structure RawSection where
  header : Str
  content : List Str
  rawText : Str
deriving DecidableEq, Repr

/-- Content assignment of `extractRawSections`: each boundary owns the
lines up to the next boundary (or the document end). -/
def boundsContent (lines : List Str) (total : Nat) : List RawBound → List (Str × RawSection)
  | [] => []
  | b :: rest =>
    let endIdx := match rest with
      | b2 :: _ => b2.index
      | [] => total
    let content := (lines.drop (b.index + 1)).take (endIdx - (b.index + 1))
    (b.name, ⟨b.originalName, content, joinS [Char.ofNat 10] content⟩) ::
      boundsContent lines total rest

/-- `rawSections[section.name] = …` overwrites, so a name lookup sees the
last boundary with that name. -/
def lastAssoc (k : Str) (l : List (Str × RawSection)) : Option RawSection :=
  ((l.filter fun kv => kv.1 == k).getLast?).map (·.2)

def extractRawSections (text : Str) : List (Str × RawSection) :=
  let lines := normLines text
  boundsContent lines lines.length (boundsGo 0 lines)

/-- The secondary strategy `parseResumeSecondaryApproach`. -/
def parseResumeSecondaryApproach (cp : Str → Option Str) (text : Str) : RecordB :=
  let lines := normLines text
  let contactInfo := extractContactInfo text
  let raws := extractRawSections text
  let name := rp2FindName lines
  let workExperience := match lastAssoc (lit "experience") raws with
    | some rs => parseRawExperience cp rs.content
    | none => []
  let education := match lastAssoc (lit "education") raws with
    | some rs => parseRawEducation rs.content
    | none => []
  let projects := match lastAssoc (lit "projects") raws with
    | some rs => parseRawProjects rs.content
    | none => []
  let skills := match lastAssoc (lit "skills") raws with
    | some rs =>
      (splitChar (fun c => c = Char.ofNat 10 || c = ':') rs.rawText).flatMap
        fun sl => if (trim sl).isEmpty then [] else skillTokens sl
    | none => []
  let certifications :=
    if (lastAssoc (lit "achievements") raws).isSome ||
        (lastAssoc (lit "certifications") raws).isSome then
      let achievementsText :=
        (match lastAssoc (lit "achievements") raws with
         | some rs => rs.rawText
         | none => []) ++
        (match lastAssoc (lit "certifications") raws with
         | some rs => rs.rawText
         | none => [])
      ((Rx.splitOnChar (Char.ofNat 10) achievementsText).filter
          fun l => !(trim l).isEmpty).filterMap fun l =>
        if startsWithS l (lit "•") || decide (10 < (trim l).length) then
          some { name := trim (Rx.stripBullet l), issuer := ([] : Str), date := ([] : Str) }
        else none
    else []
  let jobRoles := (workExperience.map (·.position)).filter
    fun pos => !pos.isEmpty && decide (0 < (trim pos).length)
  { name := name, email := contactInfo.email, phone := contactInfo.phone,
    address := [], summary := [], linkedin := contactInfo.linkedin,
    jobRole := jobRoles, education := education,
    workExperience := workExperience, skills := dedupFirst skills,
    projects := projects, certifications := certifications,
    languages := [], hobbies := [] }

end Resume.RP2

namespace Resume.P000

/-!
Embedding of the enhanced pipeline of the unnamed source file:
`detectSectionBoundaries`, `getSectionContent`, `extractName`,
`extractDatesFromText`, `parseWorkExperience`, `parseEducation`,
`parseSkills`, `parseProjects`, `parseCertifications`, `extractJobRoles`
and the pruning `parseResume`.
-/

/-- Its `sectionKeywords` table (the certifications list is one entry
shorter than in `resumeParser2.js`). -/
def sectionKeywords : List (SecType × List Str) :=
  [(.summary, [lit "summary", lit "profile", lit "about", lit "objective",
      lit "career objective", lit "job objective", lit "profile summary",
      lit "professional summary"]),
   (.education, [lit "education", lit "academic", lit "qualification",
      lit "educational background", lit "academic background"]),
   (.experience, [lit "experience", lit "work experience", lit "employment",
      lit "professional experience", lit "career history", lit "work history"]),
   (.articleship, [lit "articleship", lit "article assistant", lit "training",
      lit "internship"]),
   (.skills, [lit "skills", lit "technical skills", lit "core competencies",
      lit "competencies", lit "technologies", lit "expertise"]),
   (.projects, [lit "projects", lit "key projects", lit "notable projects",
      lit "project experience"]),
   (.certifications, [lit "certifications", lit "certificates", lit "awards",
      lit "accolades", lit "achievements", lit "honors", lit "achievement",
      lit "position of responsibility"]),
   (.languages, [lit "languages", lit "language", lit "spoken languages",
      lit "language known"]),
   (.hobbies, [lit "hobbies", lit "interests", lit "personal interests",
      lit "activities"])]

structure RawSec where
  type : SecType
  startIndex : Nat
  header : Str
deriving DecidableEq, Repr

structure Sec where
  type : SecType
  startIndex : Nat
  endIndex : Nat
  header : Str
deriving DecidableEq, Repr

/-- One keyword's acceptance test: exact, close (slack 10) or fuzzy
(ratio above 85). -/
def qualifies (line kw : Str) : Bool :=
  line == kw || (containsS line kw && decide (line.length ≤ kw.length + 10)) ||
    decide (85 < Fuzz.ratioVal line kw)

/-- Spans pushed for one line (no line is skipped here; the `break`
leaves only the keyword loop). -/
def lineSecs (i : Nat) (l : Str) : List RawSec :=
  let line := toLowerS (trim l)
  sectionKeywords.filterMap fun tk =>
    ((tk.2).find? (qualifies line)).map fun _ =>
      { type := tk.1, startIndex := i, header := trim l }

def detectGo (i : Nat) : List Str → List RawSec
  | [] => []
  | l :: rest => lineSecs i l ++ detectGo (i + 1) rest

def assignEnds (total : Nat) : List RawSec → List Sec
  | [] => []
  | [a] => [⟨a.type, a.startIndex, total, a.header⟩]
  | a :: b :: t =>
    ⟨a.type, a.startIndex, b.startIndex, a.header⟩ :: assignEnds total (b :: t)

/-- `detectSectionBoundaries` (pushes are already in line order; no
sort). -/
def detectSectionBoundaries (lines : List Str) : List Sec :=
  assignEnds lines.length (detectGo 0 lines)

/-- `getSectionContent`: the interior lines of the first span of the
given type, trimmed, empty lines dropped. -/
def getSectionContent (sections : List Sec) (lines : List Str) (ty : SecType) : List Str :=
  match sections.find? fun s => s.type == ty with
  | none => []
  | some sec =>
    (((lines.drop (sec.startIndex + 1)).take (sec.endIndex - (sec.startIndex + 1))).map
        trim).filter fun l => !l.isEmpty

/-- The skip test of `extractName`
(`/[@+\d]|resume|cv|curriculum/i`, length outside 3–50). -/
def nameSkip (line : Str) : Bool :=
  line.any (fun c => c = '@' || c = '+' || c.isDigit) ||
    ciContains line (lit "resume") || ciContains line (lit "cv") ||
    ciContains line (lit "curriculum") ||
    decide (line.length < 3) || decide (50 < line.length)

/-- The acceptance test of `extractName`: 2–4 words, each non-empty with
an upper first character and a lowercase remainder. -/
def nameAccept (line : Str) : Bool :=
  let words := splitRuns isWs line
  decide (2 ≤ words.length) && decide (words.length ≤ 4) &&
    words.all fun w =>
      decide (0 < w.length) &&
        (match w.head? with
         | some c => c = c.toUpper
         | none => true) &&
        (w.drop 1) == toLowerS (w.drop 1)

/-- The loop of `extractName` over `i < min(5, lines.length)`, i.e. over
the first five lines in order; `fallback` is returned when the window is
exhausted. -/
def extractNameGo (fallback : Str) : List Str → Str
  | [] => fallback
  | l :: rest =>
    let line := trim l
    if nameSkip line then extractNameGo fallback rest
    else if nameAccept line then line
    else extractNameGo fallback rest

/-- `extractName`: scan the first five normalized lines; fall back to the
first line (`lines[0]?.trim() || ""`). -/
def extractName (lines : List Str) : Str :=
  extractNameGo (((lines.head?).map trim).getD []) (lines.take 5)

/-- `extractDatesFromText`: the shared range pattern first (sentinels
`present`/`current` only — the pattern itself has no `Ongoing`
alternative), then a single `Month Year`, then empty strings. -/
def extractDatesFromText (cp : Str → Option Str) (text : Str) : DateRange :=
  match Rx.findRange000 text with
  | some (g1, g2) =>
    let low := toLowerS g2
    let isPres := containsS low (lit "present") || containsS low (lit "current")
    { startDate := (cp g1).getD []
      endDate := if isPres then lit "Present" else (cp g2).getD [] }
  | none =>
    match Rx.findSingleMonthYear text with
    | some g => { startDate := (cp g).getD [], endDate := [] }
    | none => { startDate := [], endDate := [] }

/-- `parseWorkExperience`: a date-range line opens a new entry whose
company is the trim of the raw line just before it (empty at the first
line) and whose position is the next non-bullet non-empty trimmed line;
a location is read from two lines ahead but never stored.  Other lines
feed the bullet collector of the open entry. -/
def pwGo (cp : Str → Option Str) (prev : Option Str) (curr : Option ExpA)
    (collecting : Bool) : List Str → List ExpA
  | [] => curr.toList
  | l :: rest =>
    let line := trim l
    if (Rx.findRange000 line).isSome then
      let company := match prev with
        | some p => trim p
        | none => []
      let position := match rest.head? with
        | some nl =>
          let n := trim nl
          if !startsWithS n (lit "•") && !n.isEmpty then n else []
        | none => []
      let dates := extractDatesFromText cp line
      curr.toList ++
        pwGo cp (some l)
          (some { company := company, position := position,
                  startDate := dates.startDate, endDate := dates.endDate,
                  overview := [] }) true rest
    else
      let curr2 :=
        if collecting && curr.isSome then
          if startsWithS line (lit "•") then
            curr.map fun e => { e with overview := e.overview ++ [trim (line.drop 1)] }
          else if !line.isEmpty && !Rx.headerLike line then
            curr.map fun e =>
              if e.overview.isEmpty then e else { e with overview := e.overview ++ [line] }
          else curr
        else curr
      let collecting2 :=
        if collecting && curr.isSome then
          if startsWithS line (lit "•") then collecting
          else if !line.isEmpty && !Rx.headerLike line then collecting
          else if Rx.headerLike line && decide (line.length < 30) then false
          else collecting
        else collecting
      pwGo cp (some l) curr2 collecting2 rest

def parseWorkExperience (cp : Str → Option Str) (lines : List Str) : List ExpA :=
  pwGo cp none none false lines

/-- `parseEducation`: one entry per line matching the degree pattern. -/
def parseEducation (lines : List Str) : List EduEntry :=
  lines.filterMap fun line =>
    if Rx.degTest000 line then
      let years := Rx.allFourDigits line
      let degreeMatch := Rx.scanFirst (Rx.altsAt Rx.degAlts) line
      let institution0 := trim (Rx.beforeDegree line)
      let institution :=
        if institution0.isEmpty then
          trim (Rx.cutFromFourDigits (Rx.removeFirstDegree line))
        else institution0
      some
        { institution := if institution.isEmpty then trim line else institution
          degree := match degreeMatch with
            | some dm => Rx.removeDots dm
            | none => []
          fieldOfStudy := (Rx.findField line).getD []
          startDate := if 2 ≤ years.length then ((years.get? 0).getD []) ++ lit "-01-01" else []
          endDate := if 2 ≤ years.length then ((years.get? 1).getD []) ++ lit "-12-31" else []
          cgpa := Rx.findCgpa line }
    else none

/-- `parseSkills`: categorised lines (`label: …`) split only the text
after the colon on `[,|]+` with no length cap; plain lines split on
`[,|•]+` with the 50-character cap; the result is deduplicated. -/
def parseSkills (lines : List Str) : List Str :=
  dedupFirst (lines.flatMap fun line =>
    match Rx.categoryMatch line with
    | some (_, g2) =>
      ((splitRuns (fun c => c = ',' || c = '|') g2).map trim).filter fun s => !s.isEmpty
    | none =>
      ((splitRuns (fun c => c = ',' || c = '|' || c = '•') line).map trim).filter
        fun s => !s.isEmpty && decide (s.length < 50))

/-- `parseProjects` of the enhanced pipeline (candidate titles also by
`GitHub`/`Live` markers or a leading capital). -/
def pjGo (curr : Option ProjEntry) : List Str → List ProjEntry
  | [] => curr.toList
  | l :: rest =>
    let line := trim l
    if containsS line (lit "|") || containsS line (lit "GitHub") ||
        containsS line (lit "Live") ||
        (Rx.firstIsUpper line && !startsWithS line (lit "•")) then
      let parts := Rx.splitOnChar '|' line
      let newProj : ProjEntry :=
        { title := trim ((parts.head?).getD [])
          description := []
          technologies := match parts.get? 1 with
            | some p => trim p
            | none => []
          link := match Rx.findGithubMark line with
            | some g => g
            | none => match Rx.findLiveMark line with
              | some v => v
              | none => [] }
      curr.toList ++ pjGo (some newProj) rest
    else if curr.isSome && startsWithS line (lit "•") then
      pjGo (curr.map fun p => { p with description := p.description ++ [trim (line.drop 1)] }) rest
    else pjGo curr rest

def parseProjects (lines : List Str) : List ProjEntry := pjGo none lines

/-- `parseCertifications` (with the non-empty clean-line check). -/
def parseCertifications (lines : List Str) : List CertEntry :=
  lines.filterMap fun line =>
    if startsWithS line (lit "•") || decide (10 < (trim line).length) then
      let cleanLine := trim (Rx.stripBullet line)
      if !cleanLine.isEmpty then some { name := cleanLine, issuer := [], date := [] }
      else none
    else none

/-- `extractJobRoles` (filter non-empty positions, then trim them). -/
def extractJobRoles (we : List ExpA) : List Str :=
  ((we.map (·.position)).filter fun p => !p.isEmpty && decide (0 < (trim p).length)).map trim

/-- The record of the enhanced pipeline before pruning. -/
structure RecordA where
  name : Str
  email : Str
  phone : Str
  address : Str
  summary : Str
  linkedin : Str
  jobRole : List Str
  education : List EduEntry
  workExperience : List ExpA
  skills : List Str
  projects : List ProjEntry
  certifications : List CertEntry
  languages : List Str
  hobbies : List Str
deriving DecidableEq, Repr

/-- A field value of the assembled record (string or list). -/
inductive FieldV where
  | str (s : Str)
  | strList (l : List Str)
  | eduList (l : List EduEntry)
  | expList (l : List ExpA)
  | projList (l : List ProjEntry)
  | certList (l : List CertEntry)
deriving DecidableEq, Repr

/-- The delete test of the clean-up loop: an array of length 0, or a
string whose trim is empty. -/
def isEmptyDel : FieldV → Bool
  | .str s => (trim s).isEmpty
  | .strList l => l.isEmpty
  | .eduList l => l.isEmpty
  | .expList l => l.isEmpty
  | .projList l => l.isEmpty
  | .certList l => l.isEmpty

/-- The record as a keyed field list, in insertion order. -/
def fieldsA (r : RecordA) : List (Str × FieldV) :=
  [(lit "name", .str r.name), (lit "email", .str r.email),
   (lit "phone", .str r.phone), (lit "address", .str r.address),
   (lit "summary", .str r.summary), (lit "linkedin", .str r.linkedin),
   (lit "jobRole", .strList r.jobRole), (lit "education", .eduList r.education),
   (lit "workExperience", .expList r.workExperience),
   (lit "skills", .strList r.skills), (lit "projects", .projList r.projects),
   (lit "certifications", .certList r.certifications),
   (lit "languages", .strList r.languages), (lit "hobbies", .strList r.hobbies)]

/-- The clean-up loop: delete every empty field. -/
def pruneFields (fs : List (Str × FieldV)) : List (Str × FieldV) :=
  fs.filter fun kv => !isEmptyDel kv.2

/-- The assembled (unpruned) record of the enhanced `parseResume`. -/
def buildRecord (cp : Str → Option Str) (text : Str) : RecordA :=
  let lines := normLines text
  let sections := detectSectionBoundaries lines
  let contactInfo := extractContactInfo text
  let summaryContent := getSectionContent sections lines .summary
  let educationContent := getSectionContent sections lines .education
  let experienceContent := getSectionContent sections lines .experience
  let skillsContent := getSectionContent sections lines .skills
  let projectsContent := getSectionContent sections lines .projects
  let certificationsContent := getSectionContent sections lines .certifications
  let languagesContent := getSectionContent sections lines .languages
  let hobbiesContent := getSectionContent sections lines .hobbies
  let workExperience := parseWorkExperience cp experienceContent
  { name := extractName lines
    email := contactInfo.email
    phone := contactInfo.phone
    address := []
    summary := joinS (lit " ") summaryContent
    linkedin := contactInfo.linkedin
    jobRole := extractJobRoles workExperience
    education := parseEducation educationContent
    workExperience := workExperience
    skills := parseSkills skillsContent
    projects := parseProjects projectsContent
    certifications := parseCertifications certificationsContent
    languages := ((splitRuns (fun c => c = ',' || c = '|')
        (joinS (lit " ") languagesContent)).map trim).filter fun s => !s.isEmpty
    hobbies := ((splitRuns (fun c => c = ',' || c = '|')
        (joinS (lit " ") hobbiesContent)).map trim).filter fun s => !s.isEmpty }

/-- The enhanced `parseResume`: build the record, then prune empty
fields. -/
def parseResume (cp : Str → Option Str) (text : Str) : List (Str × FieldV) :=
  pruneFields (fieldsA (buildRecord cp text))

end Resume.P000

namespace Resume.Simple

/-!
Embedding of the simple pipeline at the bottom of the unnamed source
file: `sectionMatch`, `extractSection` and `extractDates`.  Its
`chrono.parse` call is modelled by an oracle
`cpList : Str → List (Option Str)`, one element per parse result, holding
`result.start?.date().toISOString().split("T")[0]` (`none` when `start`
is absent).
-/

/-- `sectionMatch`: fuzzy token-set similarity above 80. -/
def sectionMatch (line sec : Str) : Bool :=
  decide (80 < Fuzz.tokenSetVal (toLowerS line) (toLowerS sec))

/-- The scan of `extractSection`: before the header is found, look for a
keyword line (not collected); afterwards collect lines until a line
matching one of the *same* keywords, or an empty line, breaks the
scan. -/
def esGo (kws : List Str) (found : Bool) : List Str → List Str
  | [] => []
  | l :: rest =>
    if !found then
      if kws.any fun k => sectionMatch l k then esGo kws true rest
      else esGo kws false rest
    else
      if (kws.any fun k => sectionMatch l k) || l.isEmpty then []
      else l :: esGo kws true rest

def extractSection (lines : List Str) (sectionKeywords : List Str) : List Str :=
  esGo sectionKeywords false lines

/-- `extractDates`: the first two chrono results become the two ends; a
single result leaves `endDate` as `""`; no result yields two empty
strings.  Fields are `Option Str` because `start?.date()` can leave a
field `undefined`. -/
def extractDates (cpList : Str → List (Option Str)) (text : Str) :
    Option Str × Option Str :=
  match cpList text with
  | r0 :: r1 :: _ => (r0, r1)
  | [r0] => (r0, some [])
  | [] => (some [], some [])

end Resume.Simple

namespace Resume

/-- A date oracle that never resolves a date (used for concrete runs
where no date value matters). -/
def cpNone : Str → Option Str := fun _ => none

/-- Is a field value the empty string or the empty list?  (The sparsity
claim's notion of an empty field.) -/
def fieldVEmpty : P000.FieldV → Bool
  | .str s => s.isEmpty
  | .strList l => l.isEmpty
  | .eduList l => l.isEmpty
  | .expList l => l.isEmpty
  | .projList l => l.isEmpty
  | .certList l => l.isEmpty

end Resume

namespace Resume.P000

/-- The companies `parseWorkExperience` should produce according to the
anchor reading: one entry per date-range line, whose company is the trim
of the immediately preceding line — whatever that line is — and the empty
string when the anchor is the first line. -/
def anchorCompanies (prev : Option Str) : List Str → List Str
  | [] => []
  | l :: rest =>
    if (Rx.findRange000 (trim l)).isSome then
      (match prev with
       | some p => trim p
       | none => []) :: anchorCompanies (some l) rest
    else anchorCompanies (some l) rest

end Resume.P000

namespace Resume

/-! ### Helper lemmas -/

theorem leadEq_refl (s : Str) : leadEq s s = true := by
  induction s with
  | nil => rfl
  | cons c t ih => simp [leadEq, ih]

theorem containsS_self (s : Str) : containsS s s = true := by
  cases s with
  | nil => rfl
  | cons c t => simp [containsS, leadEq_refl]

theorem scanFirst_prop {α : Type} {P : α → Prop} {f : Str → Option α}
    (hf : ∀ cs r, f cs = some r → P r) :
    ∀ {s : Str} {r : α}, Rx.scanFirst f s = some r → P r := by
  intro s
  induction s with
  | nil => intro r h; exact hf [] r (by simpa [Rx.scanFirst] using h)
  | cons c t ih =>
    intro r h
    simp only [Rx.scanFirst] at h
    cases hc : f (c :: t) with
    | some v => rw [hc] at h; cases h; exact hf _ _ hc
    | none => rw [hc] at h; exact ih h

theorem ciLitAt_lower {w cs tk rest : Str} (h : Rx.ciLitAt w cs = some (tk, rest)) :
    toLowerS tk = w := by
  simp only [Rx.ciLitAt] at h
  split at h
  · rename_i hc
    simp only [Option.some.injEq, Prod.mk.injEq] at h
    obtain ⟨ht, -⟩ := h
    subst ht
    exact hc.2
  · cases h

theorem sentinel3At_lower {cs g2 r : Str} (h : Rx.sentinel3At cs = some (g2, r)) :
    toLowerS g2 = lit "present" ∨ toLowerS g2 = lit "current" ∨
      toLowerS g2 = lit "ongoing" := by
  simp only [Rx.sentinel3At] at h
  cases h1 : Rx.ciLitAt (lit "present") cs with
  | some pr =>
    rw [h1] at h; cases h
    exact Or.inl (ciLitAt_lower h1)
  | none =>
    rw [h1] at h
    cases h2 : Rx.ciLitAt (lit "current") cs with
    | some pr =>
      rw [h2] at h; cases h
      exact Or.inr (Or.inl (ciLitAt_lower h2))
    | none =>
      rw [h2] at h
      exact Or.inr (Or.inr (ciLitAt_lower h))

theorem rangeSentinelAt_lower {cs m1 m2 : Str}
    (h : Rx.rangeSentinelAt cs = some (m1, m2)) :
    toLowerS m2 = lit "present" ∨ toLowerS m2 = lit "current" ∨
      toLowerS m2 = lit "ongoing" := by
  simp only [Rx.rangeSentinelAt] at h
  cases h1 : Rx.monthYearAt cs with
  | none => simp [h1] at h
  | some p1 =>
    obtain ⟨g1, r1⟩ := p1
    cases h2 : Rx.sepAt r1 with
    | none => simp [h1, h2] at h
    | some r2 =>
      cases h3 : Rx.sentinel3At r2 with
      | none => simp [h1, h2, h3] at h
      | some p3 =>
        obtain ⟨g2, rr⟩ := p3
        simp only [h1, h2, h3, Option.some.injEq, Prod.mk.injEq] at h
        obtain ⟨-, hm⟩ := h
        subst hm
        exact sentinel3At_lower h3

theorem findRangeSentinel_lower {t m1 m2 : Str}
    (h : Rx.findRangeSentinel t = some (m1, m2)) :
    toLowerS m2 = lit "present" ∨ toLowerS m2 = lit "current" ∨
      toLowerS m2 = lit "ongoing" := by
  exact scanFirst_prop
    (P := fun (p : Str × Str) => toLowerS p.2 = lit "present" ∨
      toLowerS p.2 = lit "current" ∨ toLowerS p.2 = lit "ongoing")
    (fun cs r hr => by
      obtain ⟨a, b⟩ := r
      exact rangeSentinelAt_lower hr) h

theorem dropWhile_dropWhile {α : Type} (p : α → Bool) (l : List α) :
    (l.dropWhile p).dropWhile p = l.dropWhile p := by
  induction l with
  | nil => rfl
  | cons a t ih =>
    by_cases hp : p a = true
    · rw [List.dropWhile_cons_of_pos hp]
      exact ih
    · simp [List.dropWhile_cons_of_neg hp]

theorem dropWhile_isSuffix {α : Type} (p : α → Bool) (l : List α) :
    l.dropWhile p <:+ l := by
  induction l with
  | nil => exact List.suffix_refl []
  | cons a t ih =>
    by_cases hp : p a = true
    · rw [List.dropWhile_cons_of_pos hp]
      exact ih.trans (List.suffix_cons a t)
    · rw [List.dropWhile_cons_of_neg hp]

theorem head_dropWhile_false {α : Type} {p : α → Bool} {l : List α} {c : α}
    {rest : List α} (h : l.dropWhile p = c :: rest) : p c = false := by
  induction l with
  | nil => cases h
  | cons a t ih =>
    by_cases hp : p a = true
    · rw [List.dropWhile_cons_of_pos hp] at h
      exact ih h
    · rw [List.dropWhile_cons_of_neg hp] at h
      cases h
      exact Bool.eq_false_iff.mpr hp

theorem trimL_trimL (s : Str) : trimL (trimL s) = trimL s :=
  dropWhile_dropWhile isWs s

/-- `trim` leaves an already left-trimmed string left-trimmed. -/
theorem trimL_trim (s : Str) : trimL (trim s) = trim s := by
  cases h : trim s with
  | nil => simp [trimL, List.dropWhile]
  | cons c rest =>
    have hpre : trim s <+: trimL s := by
      obtain ⟨t, ht⟩ := dropWhile_isSuffix isWs (trimL s).reverse
      refine ⟨t.reverse, ?_⟩
      have hrev : (t ++ (trimL s).reverse.dropWhile isWs).reverse =
          ((trimL s).reverse).reverse := by rw [ht]
      simp only [List.reverse_append, List.reverse_reverse] at hrev
      simpa [trim] using hrev
    have hhead : ∃ u, trimL s = c :: u := by
      obtain ⟨t2, ht2⟩ := hpre
      rw [h] at ht2
      exact ⟨rest ++ t2, by simpa using ht2.symm⟩
    obtain ⟨u, hu⟩ := hhead
    have hc : isWs c = false := head_dropWhile_false (l := s) (by simpa [trimL] using hu)
    rw [← h]
    simp only [trimL]
    rw [h, List.dropWhile_cons_of_neg (by simp [hc])]

theorem trim_trim (s : Str) : trim (trim s) = trim s := by
  have h1 : trim (trim s) = ((trimL (trim s)).reverse.dropWhile isWs).reverse := rfl
  rw [h1, trimL_trim]
  have : trim s = ((trimL s).reverse.dropWhile isWs).reverse := rfl
  rw [this]
  rw [List.reverse_reverse, dropWhile_dropWhile]

end Resume

namespace Resume

theorem pwGo_companies (cp : Str → Option Str) :
    ∀ (ls : List Str) (prev : Option Str) (curr : Option ExpA) (coll : Bool),
      (P000.pwGo cp prev curr coll ls).map (·.company) =
        (curr.toList.map (·.company)) ++ P000.anchorCompanies prev ls := by
  intro ls
  induction ls with
  | nil =>
    intro prev curr coll
    simp [P000.pwGo, P000.anchorCompanies]
  | cons l rest ih =>
    intro prev curr coll
    by_cases hd : (Rx.findRange000 (trim l)).isSome = true
    · simp only [P000.pwGo, P000.anchorCompanies, hd, if_true, List.map_append]
      rw [ih]
      cases prev <;> simp [Option.toList]
    · simp only [P000.pwGo, P000.anchorCompanies, hd, if_false, Bool.false_eq_true]
      rw [ih]
      congr 1
      cases curr with
      | none => simp
      | some e => split_ifs <;> (try simp) <;> (split <;> rfl)

/-- C10: in `parseWorkExperience`, the sequence of company fields equals
one entry per date-range anchor line, each holding the trim of the raw
line immediately preceding the anchor — whatever that line is, a bullet
or previous content included — and the empty string when the anchor is
the first content line. -/
theorem c10_company_from_preceding_line (cp : Str → Option Str) (lines : List Str) :
    (P000.parseWorkExperience cp lines).map (·.company) =
      P000.anchorCompanies none lines := by
  have h := pwGo_companies cp lines none none false
  simpa [P000.parseWorkExperience] using h

/-- C3: each parse entry point is a pure, deterministic function of the
date oracle and the input text: equal inputs give equal (byte-identical)
structured outputs; in the embedding no ambient state exists to read. -/
theorem c3_deterministic (cp : Str → Option Str) (t1 t2 : Str) (h : t1 = t2) :
    RP2.parseResume cp t1 = RP2.parseResume cp t2 ∧
    RP2.parseResumeSecondaryApproach cp t1 = RP2.parseResumeSecondaryApproach cp t2 ∧
    P000.parseResume cp t1 = P000.parseResume cp t2 := by
  subst h
  exact ⟨rfl, rfl, rfl⟩

/-- Witness for C3 at a concrete input. -/
theorem c3_deterministic_witness :
    RP2.parseResume cpNone (lit "John Smith") = RP2.parseResume cpNone (lit "John Smith") ∧
    RP2.parseResumeSecondaryApproach cpNone (lit "John Smith") =
      RP2.parseResumeSecondaryApproach cpNone (lit "John Smith") ∧
    P000.parseResume cpNone (lit "John Smith") = P000.parseResume cpNone (lit "John Smith") :=
  c3_deterministic cpNone (lit "John Smith") (lit "John Smith") rfl

/-- C1 (amended): the enhanced `parseResume` — the entry point that runs
the pruning loop — returns no field whose value is an empty string or an
empty list, for every oracle and input text. -/
theorem c1_pruned_record_nonempty (cp : Str → Option Str) (text : Str)
    (k : Str) (v : P000.FieldV) (h : (k, v) ∈ P000.parseResume cp text) :
    fieldVEmpty v = false := by
  simp only [P000.parseResume, P000.pruneFields] at h
  rw [List.mem_filter] at h
  obtain ⟨-, hk⟩ := h
  simp only [Bool.not_eq_eq_eq_not, Bool.not_true] at hk
  cases v with
  | str s =>
    simp only [P000.isEmptyDel] at hk
    by_cases hs : s = []
    · subst hs
      simp [trim, trimL, List.dropWhile] at hk
    · simpa [fieldVEmpty] using hs
  | strList l =>
    simp only [P000.isEmptyDel] at hk
    simpa [fieldVEmpty] using hk
  | eduList l =>
    simp only [P000.isEmptyDel] at hk
    simpa [fieldVEmpty] using hk
  | expList l =>
    simp only [P000.isEmptyDel] at hk
    simpa [fieldVEmpty] using hk
  | projList l =>
    simp only [P000.isEmptyDel] at hk
    simpa [fieldVEmpty] using hk
  | certList l =>
    simp only [P000.isEmptyDel] at hk
    simpa [fieldVEmpty] using hk

/-- Witness for C1 (amended): the name field produced for the input
`"John Smith"` is non-empty. -/
theorem c1_pruned_record_nonempty_witness :
    fieldVEmpty (P000.FieldV.str (lit "John Smith")) = false :=
  c1_pruned_record_nonempty cpNone (lit "John Smith") (lit "name")
    (P000.FieldV.str (lit "John Smith")) (by decide)

/-- C1 counterexample: both entry points of `resumeParser2.js` never
prune — on the input `"John Smith"` their records contain the fields
`address` and `summary` with empty-string values (and empty lists such as
`languages`). -/
theorem c1_rp2_empty_fields_present :
    (RP2.parseResume cpNone (lit "John Smith")).address = [] ∧
    (RP2.parseResume cpNone (lit "John Smith")).summary = [] ∧
    (RP2.parseResume cpNone (lit "John Smith")).languages = [] ∧
    (RP2.parseResumeSecondaryApproach cpNone (lit "John Smith")).address = [] := by
  refine ⟨?_, ?_, ?_, ?_⟩ <;> rfl

/-- C7: with no chrono result, `extractDates` returns both fields present
and equal to the empty string (never `undefined`); with no date-range
pattern matching, `extractDateRange` returns both fields as empty
strings.  Both are total functions: no input throws. -/
theorem c7_no_match_empty_strings (cpL : Str → List (Option Str))
    (cp : Str → Option Str) (t : Str) :
    (cpL t = [] → Simple.extractDates cpL t = (some [], some [])) ∧
    (Rx.findRangeSentinel t = none → Rx.findRangeMonths t = none →
      Rx.findRangeYears t = none →
      RP2.extractDateRange cp t = { startDate := [], endDate := [] }) := by
  constructor
  · intro h
    simp [Simple.extractDates, h]
  · intro h1 h2 h3
    simp [RP2.extractDateRange, h1, h2, h3]

/-- Witness for C7 at the patternless input `"hello"`. -/
theorem c7_no_match_empty_strings_witness :
    Simple.extractDates (fun _ => []) (lit "hello") = (some [], some []) ∧
    RP2.extractDateRange cpNone (lit "hello") = { startDate := [], endDate := [] } :=
  ⟨(c7_no_match_empty_strings (fun _ => []) cpNone (lit "hello")).1 rfl,
   (c7_no_match_empty_strings (fun _ => []) cpNone (lit "hello")).2
     (by decide) (by decide) (by decide)⟩

end Resume

namespace Resume

/-- C2 (amended): whenever `extractDateRange`'s first pattern — the one
whose end alternatives are `Present|Current|Ongoing` — matches the text,
the returned `endDate` is exactly the literal `"Present"`, for every
oracle. -/
theorem c2_sentinel_maps_to_present (cp : Str → Option Str) (text m1 m2 : Str)
    (h : Rx.findRangeSentinel text = some (m1, m2)) :
    (RP2.extractDateRange cp text).endDate = lit "Present" := by
  simp only [RP2.extractDateRange, h]
  have hlow := findRangeSentinel_lower h
  have hpres : (containsS (toLowerS m2) (lit "present") ||
      containsS (toLowerS m2) (lit "current") ||
      containsS (toLowerS m2) (lit "ongoing")) = true := by
    rcases hlow with h1 | h1 | h1 <;> rw [h1] <;> simp [containsS_self]
  simp only [RP2.edrBody, hpres, if_true]

/-- Witness for C2 (amended) on a concrete upper-case `ONGOING` range. -/
theorem c2_sentinel_maps_to_present_witness :
    (RP2.extractDateRange cpNone (lit "Jan 2025 - ONGOING")).endDate = lit "Present" :=
  c2_sentinel_maps_to_present cpNone (lit "Jan 2025 - ONGOING")
    (lit "Jan 2025") (lit "ONGOING") (by decide)

/-- C2 counterexample: `extractDatesFromText` — the other date-range
extractor named by the claim — does not treat `ongoing` as a sentinel:
its range pattern only admits `Present|Current`, so on
`"Jan 2025 - Ongoing"` the range does not match, the single-date fallback
fires, and `endDate` is the empty string, not `"Present"`. -/
theorem c2_ongoing_not_present_in_p000 :
    P000.extractDatesFromText cpNone (lit "Jan 2025 - Ongoing") =
      { startDate := [], endDate := [] } ∧
    ([] : Str) ≠ lit "Present" := by
  constructor
  · decide
  · decide

set_option maxRecDepth 20000 in
/-- C8 (amended): on the skills line `"Languages: C++, Python, Go"`, the
primary `parseResume` of `resumeParser2.js` (which splits only the text
after the first colon) and `parseSkills` of the enhanced pipeline both
return exactly `["C++", "Python", "Go"]`, excluding `"Languages"`. -/
theorem c8_label_stripped_primary :
    (RP2.parseResume cpNone
        ((lit "Skills") ++ (Char.ofNat 10) :: lit "Languages: C++, Python, Go")).skills =
      [lit "C++", lit "Python", lit "Go"] ∧
    P000.parseSkills [lit "Languages: C++, Python, Go"] =
      [lit "C++", lit "Python", lit "Go"] := by
  constructor
  · decide
  · decide

set_option maxRecDepth 20000 in
/-- C8 counterexample: the secondary strategy splits the skills text on
colons as if they were line separators and keeps the label, so its skills
list contains `"Languages"`. -/
theorem c8_secondary_keeps_label :
    lit "Languages" ∈ (RP2.parseResumeSecondaryApproach cpNone
        ((lit "Skills") ++ (Char.ofNat 10) :: lit "Languages: C++, Python, Go")).skills := by
  decide

end Resume

namespace Resume

theorem mem_skillTokens {s x : Str} (h : s ∈ RP2.skillTokens x) :
    1 < s.length ∧ s.length < 50 ∧ trim s = s := by
  simp only [RP2.skillTokens] at h
  rw [List.mem_filter] at h
  obtain ⟨hmem, hpred⟩ := h
  simp only [Bool.and_eq_true, decide_eq_true_eq] at hpred
  rw [List.mem_map] at hmem
  obtain ⟨t, -, rfl⟩ := hmem
  exact ⟨hpred.1, hpred.2, trim_trim t⟩

/-- C9: in both parse functions of `resumeParser2.js`, every element of
the returned skills list has trimmed length strictly between 1 and 50
(the tokens are trimmed before the length filter, so single-character
tokens such as `"C"` never survive). -/
theorem c9_skill_length_bounds (cp : Str → Option Str) (text : Str) (s : Str) :
    (s ∈ (RP2.parseResume cp text).skills →
      1 < (trim s).length ∧ (trim s).length < 50) ∧
    (s ∈ (RP2.parseResumeSecondaryApproach cp text).skills →
      1 < (trim s).length ∧ (trim s).length < 50) := by
  constructor
  · intro hs
    simp only [RP2.parseResume] at hs
    have hs2 := mem_dedupFirst hs
    rw [List.mem_flatMap] at hs2
    obtain ⟨line, -, hmem⟩ := hs2
    obtain ⟨h1, h2, h3⟩ := mem_skillTokens hmem
    rw [h3]
    exact ⟨h1, h2⟩
  · intro hs
    simp only [RP2.parseResumeSecondaryApproach] at hs
    have hs2 := mem_dedupFirst hs
    rcases hraw : RP2.lastAssoc (lit "skills") (RP2.extractRawSections text) with - | rs
    · rw [hraw] at hs2
      simp at hs2
    · rw [hraw] at hs2
      rw [List.mem_flatMap] at hs2
      obtain ⟨piece, -, hmem⟩ := hs2
      by_cases hemp : (trim piece).isEmpty = true
      · rw [if_pos hemp] at hmem
        simp at hmem
      · rw [if_neg hemp] at hmem
        obtain ⟨h1, h2, h3⟩ := mem_skillTokens hmem
        rw [h3]
        exact ⟨h1, h2⟩

set_option maxRecDepth 20000 in
/-- Witness for C9 on a concrete skills section. -/
theorem c9_skill_length_bounds_witness :
    1 < (trim (lit "Python")).length ∧ (trim (lit "Python")).length < 50 :=
  (c9_skill_length_bounds cpNone
      ((lit "Skills") ++ (Char.ofNat 10) :: lit "Python, Go, C") (lit "Python")).1
    (by decide)

end Resume

namespace Resume

theorem map_filterMap_sublist {α β γ : Type} (f : α → Option β) (g : β → γ)
    (h : α → γ) (H : ∀ a b, f a = some b → g b = h a) (l : List α) :
    ((l.filterMap f).map g).Sublist (l.map h) := by
  induction l with
  | nil => simp
  | cons a t ih =>
    cases hf : f a with
    | none =>
      simp only [List.filterMap_cons, hf, List.map_cons]
      exact ih.cons (h a)
    | some b =>
      simp only [List.filterMap_cons, hf, List.map_cons]
      rw [H a b hf]
      exact ih.cons₂ (h a)

theorem mem_lineSecsRP2_fields {i : Nat} {l : Str} {s : RP2.RawSec}
    (h : s ∈ RP2.lineSecs i l) : s.startIndex = i := by
  simp only [RP2.lineSecs] at h
  split at h
  · simp at h
  · rw [List.mem_filterMap] at h
    obtain ⟨tk, -, htk⟩ := h
    cases hf : (tk.2).find? (RP2.qualifies (toLowerS (trim l))) with
    | none => rw [hf] at htk; cases htk
    | some kw => rw [hf] at htk; cases htk; rfl

theorem lineSecsRP2_pairs_sublist (i : Nat) (l : Str) :
    ((RP2.lineSecs i l).map fun s => (s.startIndex, s.type)).Sublist
      (RP2.sectionKeywords.map fun tk => (i, tk.1)) := by
  simp only [RP2.lineSecs]
  split
  · simp
  · refine map_filterMap_sublist _ _ _ ?_ _
    intro tk s htk
    cases hf : (tk.2).find? (RP2.qualifies (toLowerS (trim l))) with
    | none => rw [hf] at htk; cases htk
    | some kw => rw [hf] at htk; cases htk; rfl

theorem lineSecsRP2_pairs_nodup (i : Nat) (l : Str) :
    ((RP2.lineSecs i l).map fun s => (s.startIndex, s.type)).Nodup := by
  refine (lineSecsRP2_pairs_sublist i l).nodup ?_
  have h1 : (RP2.sectionKeywords.map fun tk => ((i, tk.1) : Nat × SecType)) =
      (RP2.sectionKeywords.map fun tk => tk.1).map fun ty => (i, ty) := by
    rw [List.map_map]
    rfl
  rw [h1]
  refine List.Nodup.map ?_ (by decide)
  intro a b hab
  simpa using congrArg Prod.snd hab

theorem detectGoRP2_start_ge :
    ∀ (ls : List Str) (i : Nat) (s : RP2.RawSec), s ∈ RP2.detectGo i ls →
      i ≤ s.startIndex := by
  intro ls
  induction ls with
  | nil => intro i s hs; simp [RP2.detectGo] at hs
  | cons l rest ih =>
    intro i s hs
    simp only [RP2.detectGo, List.mem_append] at hs
    rcases hs with hs | hs
    · rw [mem_lineSecsRP2_fields hs]
    · exact Nat.le_trans (Nat.le_succ i) (ih (i + 1) s hs)

theorem detectGoRP2_pairs_nodup :
    ∀ (ls : List Str) (i : Nat),
      ((RP2.detectGo i ls).map fun s => (s.startIndex, s.type)).Nodup := by
  intro ls
  induction ls with
  | nil => intro i; simp [RP2.detectGo]
  | cons l rest ih =>
    intro i
    simp only [RP2.detectGo, List.map_append]
    rw [List.nodup_append]
    refine ⟨lineSecsRP2_pairs_nodup i l, ih (i + 1), ?_⟩
    intro p hp hq
    rw [List.mem_map] at hp hq
    obtain ⟨s1, hs1, rfl⟩ := hp
    obtain ⟨s2, hs2, heq⟩ := hq
    have h1 : s1.startIndex = i := mem_lineSecsRP2_fields hs1
    have h2 : i + 1 ≤ s2.startIndex := detectGoRP2_start_ge rest (i + 1) s2 hs2
    have := congrArg Prod.fst heq
    simp at this
    omega

theorem assignEndsRP2_pairs (total : Nat) :
    ∀ raw : List RP2.RawSec,
      (RP2.assignEnds total raw).map (fun s => (s.startIndex, s.type)) =
        raw.map fun s => (s.startIndex, s.type) := by
  intro raw
  induction raw with
  | nil => rfl
  | cons a t ih =>
    cases t with
    | nil => rfl
    | cons b t2 =>
      simp only [RP2.assignEnds, List.map_cons] at ih ⊢
      rw [ih]

end Resume

namespace Resume

theorem mem_lineSecs000_start {i : Nat} {l : Str} {s : P000.RawSec}
    (h : s ∈ P000.lineSecs i l) : s.startIndex = i := by
  simp only [P000.lineSecs] at h
  rw [List.mem_filterMap] at h
  obtain ⟨tk, -, htk⟩ := h
  cases hf : (tk.2).find? (P000.qualifies (toLowerS (trim l))) with
  | none => rw [hf] at htk; cases htk
  | some kw => rw [hf] at htk; cases htk; rfl

theorem detectGo000_start_ge :
    ∀ (ls : List Str) (i : Nat) (s : P000.RawSec), s ∈ P000.detectGo i ls →
      i ≤ s.startIndex := by
  intro ls
  induction ls with
  | nil => intro i s hs; simp [P000.detectGo] at hs
  | cons l rest ih =>
    intro i s hs
    simp only [P000.detectGo, List.mem_append] at hs
    rcases hs with hs | hs
    · rw [mem_lineSecs000_start hs]
    · exact Nat.le_trans (Nat.le_succ i) (ih (i + 1) s hs)

theorem detectGo000_sorted :
    ∀ (ls : List Str) (i : Nat),
      (P000.detectGo i ls).Pairwise fun a b => a.startIndex ≤ b.startIndex := by
  intro ls
  induction ls with
  | nil => intro i; simp [P000.detectGo]
  | cons l rest ih =>
    intro i
    simp only [P000.detectGo]
    rw [List.pairwise_append]
    refine ⟨?_, ih (i + 1), ?_⟩
    · refine List.pairwise_of_forall_mem_list ?_
      intro a ha b hb
      rw [mem_lineSecs000_start ha, mem_lineSecs000_start hb]
    · intro a ha b hb
      rw [mem_lineSecs000_start ha]
      exact Nat.le_trans (Nat.le_succ i) (detectGo000_start_ge rest (i + 1) b hb)

theorem mem_assignEnds000_start (total : Nat) :
    ∀ (raw : List P000.RawSec) (u : P000.Sec), u ∈ P000.assignEnds total raw →
      ∃ r ∈ raw, u.startIndex = r.startIndex := by
  intro raw
  induction raw with
  | nil => intro u hu; simp [P000.assignEnds] at hu
  | cons a t ih =>
    intro u hu
    cases t with
    | nil =>
      simp only [P000.assignEnds, List.mem_singleton] at hu
      subst hu
      exact ⟨a, List.mem_cons_self a [], rfl⟩
    | cons b t2 =>
      simp only [P000.assignEnds, List.mem_cons] at hu
      rcases hu with rfl | hu2
      · exact ⟨a, List.mem_cons_self a (b :: t2), rfl⟩
      · obtain ⟨r, hr, hru⟩ := ih u hu2
        exact ⟨r, List.mem_cons_of_mem a hr, hru⟩

theorem assignEnds000_isolated (total : Nat) :
    ∀ raw : List P000.RawSec,
      raw.Pairwise (fun p q => p.startIndex ≤ q.startIndex) →
      ∀ sec ∈ P000.assignEnds total raw, ∀ s2 ∈ P000.assignEnds total raw,
        ¬(sec.startIndex < s2.startIndex ∧ s2.startIndex < sec.endIndex) := by
  intro raw
  induction raw with
  | nil => intro _ sec hsec; simp [P000.assignEnds] at hsec
  | cons a t ih =>
    intro hsort sec hsec s2 hs2
    cases t with
    | nil =>
      simp only [P000.assignEnds, List.mem_singleton] at hsec hs2
      subst hsec
      subst hs2
      intro hcon
      omega
    | cons b t2 =>
      have hsort2 := List.Pairwise.of_cons hsort
      have hhead : ∀ r ∈ b :: t2, a.startIndex ≤ r.startIndex := fun r hr =>
        List.rel_of_pairwise_cons hsort hr
      have hble : ∀ r ∈ b :: t2, b.startIndex ≤ r.startIndex := by
        intro r hr
        rcases List.mem_cons.mp hr with rfl | hr2
        · exact Nat.le_refl _
        · exact List.rel_of_pairwise_cons hsort2 hr2
      simp only [P000.assignEnds, List.mem_cons] at hsec hs2
      rcases hsec with rfl | hsec2 <;> rcases hs2 with rfl | hs22
      · intro hcon
        omega
      · obtain ⟨r, hr, hru⟩ := mem_assignEnds000_start total (b :: t2) s2 hs22
        intro hcon
        have hge := hble r hr
        simp only at hcon
        omega
      · obtain ⟨r, hr, hru⟩ := mem_assignEnds000_start total (b :: t2) sec hsec2
        intro hcon
        have hge := hhead r hr
        simp only at hcon
        omega
      · exact ih hsort2 sec hsec2 s2 hs22

set_option maxRecDepth 20000 in
/-- C6 counterexample: the simple pipeline's `extractSection` stops only
at a line matching its *own* keyword list (or an empty line, which the
line normalizer has already removed), so the content it attributes to the
experience section contains the line `"Skills"` — the very header line at
which the skills call of `extractSection` anchors its own section. -/
theorem c6_extractSection_includes_other_header :
    Simple.extractSection
        [lit "Experience", lit "Worked at X", lit "Skills", lit "C++"]
        [lit "experience", lit "work", lit "employment"] =
      [lit "Worked at X", lit "Skills", lit "C++"] ∧
    Simple.extractSection
        [lit "Experience", lit "Worked at X", lit "Skills", lit "C++"]
        [lit "skills", lit "technologies"] = [lit "C++"] := by
  constructor
  · decide
  · decide

end Resume

namespace Resume

theorem extractNameGo_eq_find (fb : Str) :
    ∀ ls : List Str,
      P000.extractNameGo fb ls =
        (((ls.map trim).find? fun l => !P000.nameSkip l && P000.nameAccept l).getD fb) := by
  intro ls
  induction ls with
  | nil => rfl
  | cons l rest ih =>
    simp only [P000.extractNameGo, List.map_cons, List.find?]
    by_cases h1 : P000.nameSkip (trim l) = true
    · simp only [h1, if_true, Bool.not_true, Bool.false_and]
      exact ih
    · have h1f : P000.nameSkip (trim l) = false := Bool.eq_false_iff.mpr h1
      by_cases h2 : P000.nameAccept (trim l) = true
      · simp [h1f, h2]
      · have h2f : P000.nameAccept (trim l) = false := Bool.eq_false_iff.mpr h2
        simp only [h1f, if_false, h2f, Bool.not_false, Bool.true_and, Bool.false_eq_true]
        exact ih

/-- C5 (amended): `extractName` of the enhanced pipeline examines only
the first 5 normalized lines and returns the first one that passes the
skip test (no `@`/`+`/digit, no resume/cv/curriculum keyword, length
3–50) and the acceptance test (2–4 words, each with an upper first
character and lowercase remainder); if none qualifies it returns the
trimmed first line (or `""`).  The name scans of `resumeParser2.js` do
not obey this contract (see the counterexample). -/
theorem c5_extractName_window_characterisation (lines : List Str) :
    P000.extractName lines =
      ((((lines.take 5).map trim).find?
          fun l => !P000.nameSkip l && P000.nameAccept l).getD
        ((((lines.head?).map trim)).getD [])) :=
  extractNameGo_eq_find _ (lines.take 5)

/-- C5 counterexample: the name scan of `resumeParser2.js` examines *all*
lines — on a document whose first five lines all fail even the claim's
own acceptance conditions (each contains a digit), it still returns the
sixth line instead of falling back to the first line verbatim. -/
theorem c5_rp2_name_scans_past_window :
    RP2.rp2FindName
        [lit "1", lit "2", lit "3", lit "4", lit "5", lit "John Smith"] =
      lit "John Smith" ∧
    ([lit "1", lit "2", lit "3", lit "4", lit "5"].all
        fun l => !RP2.nameCand l) = true ∧
    lit "John Smith" ≠ lit "1" := by
  refine ⟨by decide, by decide, by decide⟩

end Resume

namespace Resume

theorem lineSecs000_pairs_sublist (i : Nat) (l : Str) :
    ((P000.lineSecs i l).map fun s => (s.startIndex, s.type)).Sublist
      (P000.sectionKeywords.map fun tk => (i, tk.1)) := by
  simp only [P000.lineSecs]
  refine map_filterMap_sublist _ _ _ ?_ _
  intro tk s htk
  cases hf : (tk.2).find? (P000.qualifies (toLowerS (trim l))) with
  | none => rw [hf] at htk; cases htk
  | some kw => rw [hf] at htk; cases htk; rfl

theorem lineSecs000_pairs_nodup (i : Nat) (l : Str) :
    ((P000.lineSecs i l).map fun s => (s.startIndex, s.type)).Nodup := by
  refine (lineSecs000_pairs_sublist i l).nodup ?_
  have h1 : (P000.sectionKeywords.map fun tk => ((i, tk.1) : Nat × SecType)) =
      (P000.sectionKeywords.map fun tk => tk.1).map fun ty => (i, ty) := by
    rw [List.map_map]
    rfl
  rw [h1]
  refine List.Nodup.map ?_ (by decide)
  intro a b hab
  simpa using congrArg Prod.snd hab

theorem detectGo000_pairs_nodup :
    ∀ (ls : List Str) (i : Nat),
      ((P000.detectGo i ls).map fun s => (s.startIndex, s.type)).Nodup := by
  intro ls
  induction ls with
  | nil => intro i; simp [P000.detectGo]
  | cons l rest ih =>
    intro i
    simp only [P000.detectGo, List.map_append]
    rw [List.nodup_append]
    refine ⟨lineSecs000_pairs_nodup i l, ih (i + 1), ?_⟩
    intro p hp hq
    rw [List.mem_map] at hp hq
    obtain ⟨s1, hs1, rfl⟩ := hp
    obtain ⟨s2, hs2, heq⟩ := hq
    have h1 : s1.startIndex = i := mem_lineSecs000_start hs1
    have h2 : i + 1 ≤ s2.startIndex := detectGo000_start_ge rest (i + 1) s2 hs2
    have := congrArg Prod.fst heq
    simp at this
    omega

theorem assignEnds000_pairs (total : Nat) :
    ∀ raw : List P000.RawSec,
      (P000.assignEnds total raw).map (fun s => (s.startIndex, s.type)) =
        raw.map fun s => (s.startIndex, s.type) := by
  intro raw
  induction raw with
  | nil => rfl
  | cons a t ih =>
    cases t with
    | nil => rfl
    | cons b t2 =>
      simp only [P000.assignEnds, List.map_cons] at ih ⊢
      rw [ih]

theorem mem_assignEndsRP2_start (total : Nat) :
    ∀ (raw : List RP2.RawSec) (u : RP2.Sec), u ∈ RP2.assignEnds total raw →
      ∃ r ∈ raw, u.startIndex = r.startIndex := by
  intro raw
  induction raw with
  | nil => intro u hu; simp [RP2.assignEnds] at hu
  | cons a t ih =>
    intro u hu
    cases t with
    | nil =>
      simp only [RP2.assignEnds, List.mem_singleton] at hu
      subst hu
      exact ⟨a, List.mem_cons_self a [], rfl⟩
    | cons b t2 =>
      simp only [RP2.assignEnds, List.mem_cons] at hu
      rcases hu with rfl | hu2
      · exact ⟨a, List.mem_cons_self a (b :: t2), rfl⟩
      · obtain ⟨r, hr, hru⟩ := ih u hu2
        exact ⟨r, List.mem_cons_of_mem a hr, hru⟩

theorem assignEndsRP2_isolated (total : Nat) :
    ∀ raw : List RP2.RawSec,
      raw.Pairwise (fun p q => p.startIndex ≤ q.startIndex) →
      ∀ sec ∈ RP2.assignEnds total raw, ∀ s2 ∈ RP2.assignEnds total raw,
        ¬(sec.startIndex < s2.startIndex ∧ s2.startIndex < sec.endIndex) := by
  intro raw
  induction raw with
  | nil => intro _ sec hsec; simp [RP2.assignEnds] at hsec
  | cons a t ih =>
    intro hsort sec hsec s2 hs2
    cases t with
    | nil =>
      simp only [RP2.assignEnds, List.mem_singleton] at hsec hs2
      subst hsec
      subst hs2
      intro hcon
      omega
    | cons b t2 =>
      have hsort2 := List.Pairwise.of_cons hsort
      have hhead : ∀ r ∈ b :: t2, a.startIndex ≤ r.startIndex := fun r hr =>
        List.rel_of_pairwise_cons hsort hr
      have hble : ∀ r ∈ b :: t2, b.startIndex ≤ r.startIndex := by
        intro r hr
        rcases List.mem_cons.mp hr with rfl | hr2
        · exact Nat.le_refl _
        · exact List.rel_of_pairwise_cons hsort2 hr2
      simp only [RP2.assignEnds, List.mem_cons] at hsec hs2
      rcases hsec with rfl | hsec2 <;> rcases hs2 with rfl | hs22
      · intro hcon
        omega
      · obtain ⟨r, hr, hru⟩ := mem_assignEndsRP2_start total (b :: t2) s2 hs22
        intro hcon
        have hge := hble r hr
        simp only at hcon
        omega
      · obtain ⟨r, hr, hru⟩ := mem_assignEndsRP2_start total (b :: t2) sec hsec2
        intro hcon
        have hge := hhead r hr
        simp only at hcon
        omega
      · exact ih hsort2 sec hsec2 s2 hs22

theorem insertionSortRP2_sorted (l : List RP2.RawSec) :
    (List.insertionSort (fun a b => a.startIndex ≤ b.startIndex) l).Pairwise
      (fun a b => a.startIndex ≤ b.startIndex) := by
  haveI : IsTotal RP2.RawSec (fun a b => a.startIndex ≤ b.startIndex) :=
    ⟨fun a b => Nat.le_total _ _⟩
  haveI : IsTrans RP2.RawSec (fun a b => a.startIndex ≤ b.startIndex) :=
    ⟨fun a b c hab hbc => Nat.le_trans hab hbc⟩
  exact List.sorted_insertionSort _ l

/-- C4 (amended): in both section boundary detectors — `detectSections`
of `resumeParser2.js` and `detectSectionBoundaries` of the unnamed file —
every `(line, section type)` pair produces at most one span, because the
`break` stops further keyword checks of the matching type; but the
`break` only leaves the inner keyword loop, so one line *can* be labeled
with several different section types. -/
theorem c4_at_most_one_span_per_type_per_line (lines : List Str) :
    ((RP2.detectSections lines).map fun s => (s.startIndex, s.type)).Nodup ∧
    ((P000.detectSectionBoundaries lines).map fun s => (s.startIndex, s.type)).Nodup := by
  constructor
  · rw [RP2.detectSections, assignEndsRP2_pairs]
    have hperm :=
      (List.perm_insertionSort (fun a b : RP2.RawSec => a.startIndex ≤ b.startIndex)
        (RP2.detectGo 0 lines)).map fun s => (s.startIndex, s.type)
    rw [hperm.nodup_iff]
    exact detectGoRP2_pairs_nodup lines 0
  · rw [P000.detectSectionBoundaries, assignEnds000_pairs]
    exact detectGo000_pairs_nodup lines 0

set_option maxRecDepth 40000 in
/-- C4 counterexample: the line `"skills languages"` qualifies for both
the skills and the languages keyword lists, and both detectors label it
with both section types — the `break` does not stop the scan after the
first matching type. -/
theorem c4_line_labeled_with_two_types :
    (RP2.detectSections [lit "skills languages"]).map
        (fun s => (s.type, s.startIndex)) =
      [(SecType.skills, 0), (SecType.languages, 0)] ∧
    (P000.detectSectionBoundaries [lit "skills languages"]).map
        (fun s => (s.type, s.startIndex)) =
      [(SecType.skills, 0), (SecType.languages, 0)] := by
  constructor
  · decide
  · decide

/-- C6 (amended): in both span-based slicers — `getSectionContent` over
`detectSectionBoundaries` of the unnamed file and `getSectionLines` over
`detectSections` of `resumeParser2.js` — the span found for a type
(the first span of that type, found exactly as the slicers find it)
contains no header line of any detected section strictly inside its
content slice `[startIndex+1, endIndex)`: every detected span's start
index lies at or before the section's own header, or at or after its
end. -/
theorem c6_content_excludes_headers (lines : List Str) (ty : SecType) :
    (∀ sec, (P000.detectSectionBoundaries lines).find? (fun s => s.type == ty) =
        some sec →
      ∀ s2 ∈ P000.detectSectionBoundaries lines,
        ¬(sec.startIndex < s2.startIndex ∧ s2.startIndex < sec.endIndex)) ∧
    (∀ sec, (RP2.detectSections lines).find? (fun s => s.type == ty) = some sec →
      ∀ s2 ∈ RP2.detectSections lines,
        ¬(sec.startIndex < s2.startIndex ∧ s2.startIndex < sec.endIndex)) := by
  constructor
  · intro sec hfind s2 hs2
    exact assignEnds000_isolated lines.length (P000.detectGo 0 lines)
      (detectGo000_sorted lines 0) sec (List.mem_of_find?_eq_some hfind) s2 hs2
  · intro sec hfind s2 hs2
    exact assignEndsRP2_isolated lines.length
      (List.insertionSort (fun a b => a.startIndex ≤ b.startIndex) (RP2.detectGo 0 lines))
      (insertionSortRP2_sorted _) sec (List.mem_of_find?_eq_some hfind) s2 hs2

set_option maxRecDepth 40000 in
/-- Witness for C6 (amended) on a two-section document, for both
slicers. -/
theorem c6_content_excludes_headers_witness :
    ¬((P000.Sec.mk .education 0 2 (lit "Education")).startIndex <
        (P000.Sec.mk .skills 2 3 (lit "Skills")).startIndex ∧
      (P000.Sec.mk .skills 2 3 (lit "Skills")).startIndex <
        (P000.Sec.mk .education 0 2 (lit "Education")).endIndex) ∧
    ¬((RP2.Sec.mk .education 0 2 (lit "Education") (lit "education")).startIndex <
        (RP2.Sec.mk .skills 2 3 (lit "Skills") (lit "skills")).startIndex ∧
      (RP2.Sec.mk .skills 2 3 (lit "Skills") (lit "skills")).startIndex <
        (RP2.Sec.mk .education 0 2 (lit "Education") (lit "education")).endIndex) :=
  ⟨(c6_content_excludes_headers [lit "Education", lit "B", lit "Skills"] .education).1
      (P000.Sec.mk .education 0 2 (lit "Education")) (by decide)
      (P000.Sec.mk .skills 2 3 (lit "Skills")) (by decide),
   (c6_content_excludes_headers [lit "Education", lit "B", lit "Skills"] .education).2
      (RP2.Sec.mk .education 0 2 (lit "Education") (lit "education")) (by decide)
      (RP2.Sec.mk .skills 2 3 (lit "Skills") (lit "skills")) (by decide)⟩

end Resume
